import Mathlib

/-!
Verification development for the video-editing timeline engine.

The Python sources are shallowly embedded: seconds and gain values become
exact rationals (the reals are used only for the transcendental audio-ducking
math), machine floats are modelled by exact arithmetic, fallible operations
(KeyError / ValueError) return Option, and the stateful objects (frame cache,
export loop) are modelled by explicit state passing.
-/

namespace VideoEdit

/-! ## Time domain (src/core/timeline_engine.py) -/

def TICKS_PER_SECOND : ℤ := 90000

/-- Round-half-to-even, the semantics of the builtin round. -/
def pyRound (x : ℚ) : ℤ :=
  let f := ⌊x⌋
  let frac := x - f
  if frac < 1/2 then f
  else if 1/2 < frac then f + 1
  else if f % 2 = 0 then f else f + 1

def seconds_to_ticks (seconds : ℚ) : ℤ :=
  pyRound (seconds * (TICKS_PER_SECOND : ℚ))

def ticks_to_seconds (ticks : ℤ) : ℚ :=
  (ticks : ℚ) / (TICKS_PER_SECOND : ℚ)

theorem pyRound_intCast (n : ℤ) : pyRound (n : ℚ) = n := by
  unfold pyRound
  simp [Int.floor_intCast]

/-- C1: for every valid (non-negative) tick count n, converting n ticks to
seconds (n / 90000) and back (round(seconds * 90000)) is the identity. -/
theorem C1_tick_roundtrip (n : ℤ) (_hn : 0 ≤ n) :
    seconds_to_ticks (ticks_to_seconds n) = n := by
  have h90 : ((TICKS_PER_SECOND : ℚ)) ≠ 0 := by norm_num [TICKS_PER_SECOND]
  unfold seconds_to_ticks ticks_to_seconds
  rw [div_mul_cancel₀ _ h90, pyRound_intCast]

/-- C1 witness: the round trip at the concrete tick count 3. -/
theorem C1_tick_roundtrip_witness :
    (0 : ℤ) ≤ 3 ∧ seconds_to_ticks (ticks_to_seconds 3) = 3 :=
  ⟨by norm_num, C1_tick_roundtrip 3 (by norm_num)⟩

/-! ## Data model (src/core/project_model.py) -/

structure Keyframe where
  t : ℚ
  x : ℚ
  y : ℚ
  w : ℚ
  h : ℚ
deriving DecidableEq

structure GainPoint where
  t : ℚ
  gain : ℚ
deriving DecidableEq

structure Effect where
  type : String
  params : List (String × ℚ)
  keyframes : List Keyframe
deriving DecidableEq

structure Clip where
  id : String
  asset : String
  start : ℚ
  in_point : ℚ
  out_point : ℚ
  muted : Bool := false
  locked : Bool := false
  effects : List Effect := []
  gain_envelope : List GainPoint := []
deriving DecidableEq

def Clip.duration (c : Clip) : ℚ := max 0 (c.out_point - c.in_point)

structure Track where
  id : String
  type : String
  clips : List Clip := []
  muted : Bool := false
  locked : Bool := false
deriving DecidableEq

/-- list.sort(key=lambda c: c.start): a stable sort on the start field. -/
def sortClips (clips : List Clip) : List Clip :=
  clips.mergeSort (fun a b => decide (a.start ≤ b.start))

def Track.add_clip (track : Track) (clip : Clip) : Track :=
  { track with clips := sortClips (track.clips ++ [clip]) }

/-- Clips within a track sorted by start (the Track invariant of the spec). -/
def sortedByStart (clips : List Clip) : Prop :=
  clips.Pairwise (fun a b => a.start ≤ b.start)

instance (clips : List Clip) : Decidable (sortedByStart clips) := by
  unfold sortedByStart; infer_instance

/-! ## Timeline engine edits (src/core/timeline_engine.py)

Each engine mutation acts on one track; a missing clip id (the Python
KeyError) is Option.none, and the updated track is returned in place of the
in-place mutation. -/

def insert_clip (track : Track) (clip : Clip) : Track :=
  track.add_clip clip

/-- The two halves built by split_clip for an interior (already clamped)
split time. -/
def splitClipPair (clip : Clip) (time_seconds : ℚ) : Clip × Clip :=
  let offset := time_seconds - clip.start
  let new_in := clip.in_point + offset
  ({ id := clip.id ++ "_a"
     asset := clip.asset
     start := clip.start
     in_point := clip.in_point
     out_point := new_in
     muted := clip.muted
     locked := clip.locked
     effects := clip.effects
     gain_envelope := clip.gain_envelope.filter (fun p => decide (p.t ≤ offset)) },
   { id := clip.id ++ "_b"
     asset := clip.asset
     start := time_seconds
     in_point := new_in
     out_point := clip.out_point
     muted := clip.muted
     locked := clip.locked
     effects := clip.effects
     gain_envelope := clip.gain_envelope.filter (fun p => decide (offset ≤ p.t)) })

def splitInClips (clip_id : String) (time_seconds : ℚ) :
    List Clip → Option (List Clip × Clip × Clip)
  | [] => none
  | clip :: rest =>
    if clip.id = clip_id then
      let t := max clip.start (min time_seconds (clip.start + clip.duration))
      if t ≤ clip.start ∨ clip.start + clip.duration ≤ t then
        some (clip :: rest, clip, clip)
      else
        let lr := splitClipPair clip t
        some (lr.1 :: lr.2 :: rest, lr.1, lr.2)
    else
      match splitInClips clip_id time_seconds rest with
      | none => none
      | some (rest', l, r) => some (clip :: rest', l, r)

def split_clip (track : Track) (clip_id : String) (time_seconds : ℚ) :
    Option (Track × Clip × Clip) :=
  (splitInClips clip_id time_seconds track.clips).map
    (fun res => ({ track with clips := res.1 }, res.2.1, res.2.2))

/-- The start adjustment ripple_delete applies to every clip after the
deleted one. -/
def rippleShift (deleted later : Clip) : Clip :=
  { later with start := max deleted.start (later.start - deleted.duration) }

def rippleInClips (clip_id : String) : List Clip → Option (List Clip)
  | [] => none
  | clip :: rest =>
    if clip.id = clip_id then some (rest.map (rippleShift clip))
    else (rippleInClips clip_id rest).map (fun r => clip :: r)

def ripple_delete (track : Track) (clip_id : String) : Option Track :=
  (rippleInClips clip_id track.clips).map (fun cs => { track with clips := cs })

/-- _clip_index: index of the first clip carrying the id. -/
def clipIndexInList (clip_id : String) : List Clip → Option Nat
  | [] => none
  | clip :: rest =>
    if clip.id = clip_id then some 0
    else (clipIndexInList clip_id rest).map (· + 1)

def mergeGainEnvelopes (left_clip right_clip : Clip) : List GainPoint :=
  let offset := right_clip.start - left_clip.start
  let result := left_clip.gain_envelope ++
    right_clip.gain_envelope.map (fun p => { t := p.t + offset, gain := p.gain })
  result.mergeSort (fun p q => decide (p.t ≤ q.t))

def mergedClip (left_clip right_clip : Clip) : Clip :=
  { id := left_clip.id ++ "_join"
    asset := left_clip.asset
    start := left_clip.start
    in_point := min left_clip.in_point right_clip.in_point
    out_point := max left_clip.out_point right_clip.out_point
    muted := left_clip.muted && right_clip.muted
    locked := left_clip.locked && right_clip.locked
    effects := left_clip.effects
    gain_envelope := mergeGainEnvelopes left_clip right_clip }

def join_adjacent (track : Track) (left_clip_id right_clip_id : String) :
    Option (Track × Clip) :=
  match clipIndexInList left_clip_id track.clips,
        clipIndexInList right_clip_id track.clips with
  | some li, some ri =>
    if ri = li + 1 then
      match track.clips[li]?, track.clips[ri]? with
      | some left_clip, some right_clip =>
        if left_clip.asset = right_clip.asset then
          let merged := mergedClip left_clip right_clip
          some ({ track with
                  clips := track.clips.take li ++ merged :: track.clips.drop (ri + 1) },
                merged)
        else none
      | _, _ => none
    else none
  | _, _ => none

def moveInClips (clip_id : String) (new_start : ℚ) : List Clip → Option (List Clip)
  | [] => none
  | clip :: rest =>
    if clip.id = clip_id then some ({ clip with start := max 0 new_start } :: rest)
    else (moveInClips clip_id new_start rest).map (fun r => clip :: r)

def move_clip (track : Track) (clip_id : String) (new_start : ℚ) : Option Track :=
  (moveInClips clip_id new_start track.clips).map
    (fun cs => { track with clips := sortClips cs })

def trimClipFields (clip : Clip) (new_in new_out : Option ℚ) : Clip :=
  let c1 := match new_in with
    | some ni => { clip with in_point := min (max ni 0) clip.out_point }
    | none => clip
  match new_out with
  | some no => { c1 with out_point := max no c1.in_point }
  | none => c1

def trimInClips (clip_id : String) (new_in new_out : Option ℚ) :
    List Clip → Option (List Clip)
  | [] => none
  | clip :: rest =>
    if clip.id = clip_id then some (trimClipFields clip new_in new_out :: rest)
    else (trimInClips clip_id new_in new_out rest).map (fun r => clip :: r)

def trim_clip (track : Track) (clip_id : String) (new_in new_out : Option ℚ) :
    Option Track :=
  (trimInClips clip_id new_in new_out track.clips).map
    (fun cs => { track with clips := cs })

/-! ## Characterizations of the scans shared by the engine edits -/

theorem rippleInClips_of_decomp (cid : String) :
    ∀ (pre : List Clip) (clip : Clip) (suf : List Clip), clip.id = cid →
      (∀ c ∈ pre, c.id ≠ cid) →
      rippleInClips cid (pre ++ clip :: suf) = some (pre ++ suf.map (rippleShift clip))
  | [], clip, suf, hid, _ => by simp [rippleInClips, hid]
  | c :: pre, clip, suf, hid, hpre => by
    have hc : c.id ≠ cid := hpre c (by simp)
    have ih := rippleInClips_of_decomp cid pre clip suf hid
      (fun x hx => hpre x (by simp [hx]))
    simp [rippleInClips, hc, ih]

theorem rippleInClips_some (cid : String) :
    ∀ (clips out : List Clip), rippleInClips cid clips = some out →
      ∃ pre clip suf, clips = pre ++ clip :: suf ∧ clip.id = cid ∧
        (∀ c ∈ pre, c.id ≠ cid) ∧ out = pre ++ suf.map (rippleShift clip)
  | [], out, h => by simp [rippleInClips] at h
  | c :: rest, out, h => by
    by_cases hc : c.id = cid
    · refine ⟨[], c, rest, by simp, hc, by simp, ?_⟩
      simpa [rippleInClips, hc] using h.symm
    · simp only [rippleInClips, hc, if_false, Option.map_eq_some'] at h
      obtain ⟨r, hr, hout⟩ := h
      obtain ⟨pre, clip, suf, hdec, hid, hpre, hres⟩ := rippleInClips_some cid rest r hr
      exact ⟨c :: pre, clip, suf, by simp [hdec], hid,
        by simpa [hc] using hpre, by simp [← hout, hres]⟩

theorem trimInClips_some (cid : String) (ni no : Option ℚ) :
    ∀ (clips out : List Clip), trimInClips cid ni no clips = some out →
      ∃ pre clip suf, clips = pre ++ clip :: suf ∧ clip.id = cid ∧
        out = pre ++ trimClipFields clip ni no :: suf
  | [], out, h => by simp [trimInClips] at h
  | c :: rest, out, h => by
    by_cases hc : c.id = cid
    · exact ⟨[], c, rest, by simp, hc, by simpa [trimInClips, hc] using h.symm⟩
    · simp only [trimInClips, hc, if_false, Option.map_eq_some'] at h
      obtain ⟨r, hr, hout⟩ := h
      obtain ⟨pre, clip, suf, hdec, hid, hres⟩ := trimInClips_some cid ni no rest r hr
      exact ⟨c :: pre, clip, suf, by simp [hdec], hid, by simp [← hout, hres]⟩

theorem moveInClips_some (cid : String) (ns : ℚ) :
    ∀ (clips out : List Clip), moveInClips cid ns clips = some out →
      ∃ pre clip suf, clips = pre ++ clip :: suf ∧ clip.id = cid ∧
        out = pre ++ { clip with start := max 0 ns } :: suf
  | [], out, h => by simp [moveInClips] at h
  | c :: rest, out, h => by
    by_cases hc : c.id = cid
    · exact ⟨[], c, rest, by simp, hc, by simpa [moveInClips, hc] using h.symm⟩
    · simp only [moveInClips, hc, if_false, Option.map_eq_some'] at h
      obtain ⟨r, hr, hout⟩ := h
      obtain ⟨pre, clip, suf, hdec, hid, hres⟩ := moveInClips_some cid ns rest r hr
      exact ⟨c :: pre, clip, suf, by simp [hdec], hid, by simp [← hout, hres]⟩

theorem splitInClips_noop (pre : List Clip) (clip : Clip) (suf : List Clip) (t : ℚ)
    (hpre : ∀ c ∈ pre, c.id ≠ clip.id)
    (hb : t ≤ clip.start ∨ clip.start + clip.duration ≤ t) :
    splitInClips clip.id t (pre ++ clip :: suf) = some (pre ++ clip :: suf, clip, clip) := by
  induction pre with
  | nil =>
    have hd : (0 : ℚ) ≤ clip.duration := le_max_left _ _
    have hcond : max clip.start (min t (clip.start + clip.duration)) ≤ clip.start ∨
        clip.start + clip.duration ≤ max clip.start (min t (clip.start + clip.duration)) := by
      rcases hb with h | h
      · left
        have hmin : min t (clip.start + clip.duration) ≤ clip.start :=
          le_trans (min_le_left _ _) h
        exact max_le le_rfl hmin
      · right
        have hmin : min t (clip.start + clip.duration) = clip.start + clip.duration :=
          min_eq_right h
        rw [hmin]
        exact le_max_right _ _
    rw [List.nil_append, splitInClips, if_pos rfl, if_pos hcond]
  | cons c pre ih =>
    have hc : c.id ≠ clip.id := hpre c (by simp)
    have ih2 := ih (fun x hx => hpre x (by simp [hx]))
    simp [splitInClips, hc, ih2]

theorem splitInClips_interior (pre : List Clip) (clip : Clip) (suf : List Clip) (t : ℚ)
    (hpre : ∀ c ∈ pre, c.id ≠ clip.id)
    (h1 : clip.start < t) (h2 : t < clip.start + clip.duration) :
    splitInClips clip.id t (pre ++ clip :: suf) =
      some (pre ++ (splitClipPair clip t).1 :: (splitClipPair clip t).2 :: suf,
            (splitClipPair clip t).1, (splitClipPair clip t).2) := by
  induction pre with
  | nil =>
    have hclamp : max clip.start (min t (clip.start + clip.duration)) = t := by
      rw [min_eq_left (le_of_lt h2), max_eq_right (le_of_lt h1)]
    have hcond : ¬(max clip.start (min t (clip.start + clip.duration)) ≤ clip.start ∨
        clip.start + clip.duration ≤ max clip.start (min t (clip.start + clip.duration))) := by
      rw [hclamp]
      push_neg
      exact ⟨h1, h2⟩
    rw [List.nil_append, splitInClips, if_pos rfl, if_neg hcond, hclamp]
    rfl
  | cons c pre ih =>
    have hc : c.id ≠ clip.id := hpre c (by simp)
    have ih2 := ih (fun x hx => hpre x (by simp [hx]))
    simp [splitInClips, hc, ih2]

/-- C3: split_clip at (or clamped to) a boundary is a no-op returning the
original clip twice; at an interior time it replaces the clip by two halves
that partition its media interval at in_point + (time - start) and partition
its gain envelope by t ≤ offset / t ≥ offset, boundary points in both. -/
theorem C3_split_clip (track : Track) (pre : List Clip) (clip : Clip)
    (suf : List Clip) (t : ℚ) (hdec : track.clips = pre ++ clip :: suf)
    (hpre : ∀ c ∈ pre, c.id ≠ clip.id) :
    ((t ≤ clip.start ∨ clip.start + clip.duration ≤ t) →
        split_clip track clip.id t = some (track, clip, clip)) ∧
    (clip.start < t → t < clip.start + clip.duration →
      ∃ l r, split_clip track clip.id t =
          some ({ track with clips := pre ++ l :: r :: suf }, l, r) ∧
        l.start = clip.start ∧ r.start = t ∧
        l.in_point = clip.in_point ∧
        l.out_point = clip.in_point + (t - clip.start) ∧
        r.in_point = clip.in_point + (t - clip.start) ∧
        r.out_point = clip.out_point ∧
        l.gain_envelope =
          clip.gain_envelope.filter (fun p => decide (p.t ≤ t - clip.start)) ∧
        r.gain_envelope =
          clip.gain_envelope.filter (fun p => decide (t - clip.start ≤ p.t)) ∧
        (∀ p ∈ clip.gain_envelope,
          (p.t = t - clip.start → p ∈ l.gain_envelope ∧ p ∈ r.gain_envelope) ∧
          (p.t < t - clip.start → p ∈ l.gain_envelope ∧ p ∉ r.gain_envelope) ∧
          (t - clip.start < p.t → p ∉ l.gain_envelope ∧ p ∈ r.gain_envelope))) := by
  constructor
  · intro hb
    unfold split_clip
    rw [hdec, splitInClips_noop pre clip suf t hpre hb, ← hdec]
    rfl
  · intro h1 h2
    refine ⟨(splitClipPair clip t).1, (splitClipPair clip t).2, ?_, ?_, ?_, ?_, ?_, ?_, ?_, ?_, ?_, ?_⟩
    · unfold split_clip
      rw [hdec, splitInClips_interior pre clip suf t hpre h1 h2]
      rfl
    · rfl
    · rfl
    · rfl
    · show clip.in_point + (t - clip.start) = clip.in_point + (t - clip.start)
      rfl
    · rfl
    · rfl
    · rfl
    · rfl
    · intro p hp
      have hmeml : p ∈ (splitClipPair clip t).1.gain_envelope ↔ p.t ≤ t - clip.start := by
        simp [splitClipPair, List.mem_filter, hp]
      have hmemr : p ∈ (splitClipPair clip t).2.gain_envelope ↔ t - clip.start ≤ p.t := by
        simp [splitClipPair, List.mem_filter, hp]
      refine ⟨fun he => ⟨hmeml.2 (le_of_eq he), hmemr.2 (ge_of_eq he)⟩,
        fun hlt => ⟨hmeml.2 (le_of_lt hlt), fun hc => ?_⟩,
        fun hgt => ⟨fun hc => ?_, hmemr.2 (le_of_lt hgt)⟩⟩
      · exact absurd (hmemr.1 hc) (not_le.2 hlt)
      · exact absurd (hmeml.1 hc) (not_le.2 hgt)

def demoClipA : Clip :=
  { id := "a", asset := "x", start := 0, in_point := 0, out_point := 10 }

def demoTrack3 : Track := { id := "t", type := "video", clips := [demoClipA] }

/-- C3 witness: boundary split at 0 is a no-op; interior split at 4 cuts the
media interval at 4. -/
theorem C3_split_clip_witness :
    split_clip demoTrack3 demoClipA.id 0 = some (demoTrack3, demoClipA, demoClipA) ∧
    ∃ l r, split_clip demoTrack3 demoClipA.id 4 =
        some ({ demoTrack3 with clips := [] ++ l :: r :: [] }, l, r) ∧
      l.out_point = demoClipA.in_point + (4 - demoClipA.start) ∧
      r.in_point = demoClipA.in_point + (4 - demoClipA.start) := by
  have h0 := C3_split_clip demoTrack3 [] demoClipA [] 0 rfl (by simp)
  have h4 := C3_split_clip demoTrack3 [] demoClipA [] 4 rfl (by simp)
  refine ⟨h0.1 (Or.inl (by norm_num [demoClipA])), ?_⟩
  obtain ⟨l, r, hres, _, _, _, hlo, hri, _⟩ :=
    h4.2 (by norm_num [demoClipA]) (by norm_num [demoClipA, Clip.duration])
  exact ⟨l, r, hres, hlo, hri⟩

/-- C5: ripple_delete removes the clip and sets every later clip's start to
max(deleted.start, start - deleted.duration). -/
theorem C5_ripple_delete (track : Track) (pre : List Clip) (clip : Clip)
    (suf : List Clip) (hdec : track.clips = pre ++ clip :: suf)
    (hpre : ∀ c ∈ pre, c.id ≠ clip.id) :
    ripple_delete track clip.id =
      some { track with
             clips := pre ++ suf.map (fun later =>
               { later with start := max clip.start (later.start - clip.duration) }) } := by
  unfold ripple_delete
  rw [hdec, rippleInClips_of_decomp clip.id pre clip suf rfl hpre]
  rfl

def demoRipA : Clip := { id := "a", asset := "x", start := 0, in_point := 0, out_point := 5 }

def demoRipB : Clip := { id := "b", asset := "x", start := 5, in_point := 0, out_point := 5 }

def demoRipC : Clip := { id := "c", asset := "x", start := 10, in_point := 0, out_point := 5 }

def demoRipTrack : Track :=
  { id := "t", type := "video", clips := [demoRipA, demoRipB, demoRipC] }

/-- C5 witness: clips at starts 0, 5, 10 each of duration 5; deleting the one
at start 5 leaves clips at starts 0 and 5. -/
theorem C5_ripple_delete_witness :
    demoRipTrack.clips = [demoRipA] ++ demoRipB :: [demoRipC] ∧
    (ripple_delete demoRipTrack demoRipB.id).map
      (fun tr => tr.clips.map (fun c => c.start)) = some [0, 5] := by
  refine ⟨rfl, ?_⟩
  rw [C5_ripple_delete demoRipTrack [demoRipA] demoRipB [demoRipC] rfl (by decide)]
  norm_num [demoRipA, demoRipB, demoRipC, Clip.duration]

/-! ## join_adjacent (C6, C10) -/

theorem clipIndexInList_some (cid : String) :
    ∀ (clips : List Clip) (i : Nat), clipIndexInList cid clips = some i →
      ∃ pre clip suf, clips = pre ++ clip :: suf ∧ pre.length = i ∧ clip.id = cid
  | [], i, h => by simp [clipIndexInList] at h
  | c :: rest, i, h => by
    by_cases hc : c.id = cid
    · refine ⟨[], c, rest, by simp, ?_, hc⟩
      simp only [clipIndexInList, hc, if_pos rfl] at h
      simpa using h
    · simp only [clipIndexInList, hc, if_false, Option.map_eq_some'] at h
      obtain ⟨j, hj, hij⟩ := h
      obtain ⟨pre, clip, suf, hdec, hlen, hid⟩ := clipIndexInList_some cid rest j hj
      exact ⟨c :: pre, clip, suf, by simp [hdec], by simp [hlen, hij], hid⟩

/-- C6: join_adjacent returns an error (touching nothing, since it checks
before splicing) when the two clips are not at consecutive indices or
reference different assets; on success the merged clip spans min(in_point)
to max(out_point) with muted and locked the AND of the two clips. -/
theorem C6_join_adjacent :
    (∀ (track : Track) (lid rid : String),
        clipIndexInList lid track.clips = none ∨ clipIndexInList rid track.clips = none →
        join_adjacent track lid rid = none) ∧
    (∀ (track : Track) (lid rid : String) (li ri : Nat),
        clipIndexInList lid track.clips = some li →
        clipIndexInList rid track.clips = some ri →
        ri ≠ li + 1 → join_adjacent track lid rid = none) ∧
    (∀ (track : Track) (lid rid : String) (li : Nat) (lc rc : Clip),
        clipIndexInList lid track.clips = some li →
        clipIndexInList rid track.clips = some (li + 1) →
        track.clips[li]? = some lc → track.clips[li + 1]? = some rc →
        lc.asset ≠ rc.asset → join_adjacent track lid rid = none) ∧
    (∀ (track : Track) (lid rid : String) (li : Nat) (lc rc : Clip),
        clipIndexInList lid track.clips = some li →
        clipIndexInList rid track.clips = some (li + 1) →
        track.clips[li]? = some lc → track.clips[li + 1]? = some rc →
        lc.asset = rc.asset →
        join_adjacent track lid rid =
          some ({ track with clips := track.clips.take li ++
                    mergedClip lc rc :: track.clips.drop (li + 1 + 1) }, mergedClip lc rc) ∧
        (mergedClip lc rc).in_point = min lc.in_point rc.in_point ∧
        (mergedClip lc rc).out_point = max lc.out_point rc.out_point ∧
        (mergedClip lc rc).muted = (lc.muted && rc.muted) ∧
        (mergedClip lc rc).locked = (lc.locked && rc.locked)) := by
  refine ⟨?_, ?_, ?_, ?_⟩
  · intro track lid rid h
    rcases h with h | h
    · unfold join_adjacent
      rw [h]
    · unfold join_adjacent
      rw [h]
      cases clipIndexInList lid track.clips <;> rfl
  · intro track lid rid li ri h1 h2 h3
    unfold join_adjacent
    rw [h1, h2]
    simp [h3]
  · intro track lid rid li lc rc h1 h2 h3 h4 h5
    unfold join_adjacent
    rw [h1, h2]
    simp [h3, h4, h5]
  · intro track lid rid li lc rc h1 h2 h3 h4 h5
    refine ⟨?_, rfl, rfl, rfl, rfl⟩
    unfold join_adjacent
    rw [h1, h2]
    simp [h3, h4, h5]

def demoJoinL : Clip :=
  { id := "l", asset := "x", start := 0, in_point := 0, out_point := 5,
    effects := [{ type := "blur", params := [("radius", 5)], keyframes := [] }],
    gain_envelope := [{ t := 0, gain := 1 }] }

def demoJoinR : Clip :=
  { id := "r", asset := "x", start := 5, in_point := 5, out_point := 10,
    effects := [{ type := "mosaic", params := [("blocks", 24)], keyframes := [] }],
    gain_envelope := [{ t := 0, gain := 2 }] }

def demoJoinTrack : Track :=
  { id := "t", type := "video", clips := [demoJoinL, demoJoinR] }

/-- C6 witness: joining the separated clips a and c of the three-clip track
fails, while joining the adjacent same-asset pair succeeds with the merged
span and flags. -/
theorem C6_join_adjacent_witness :
    join_adjacent demoRipTrack "a" "c" = none ∧
    (join_adjacent demoJoinTrack "l" "r" =
        some ({ demoJoinTrack with
                clips := demoJoinTrack.clips.take 0 ++
                  mergedClip demoJoinL demoJoinR :: demoJoinTrack.clips.drop (0 + 1 + 1) },
              mergedClip demoJoinL demoJoinR) ∧
      (mergedClip demoJoinL demoJoinR).in_point =
        min demoJoinL.in_point demoJoinR.in_point ∧
      (mergedClip demoJoinL demoJoinR).out_point =
        max demoJoinL.out_point demoJoinR.out_point ∧
      (mergedClip demoJoinL demoJoinR).muted = (demoJoinL.muted && demoJoinR.muted) ∧
      (mergedClip demoJoinL demoJoinR).locked = (demoJoinL.locked && demoJoinR.locked)) :=
  ⟨C6_join_adjacent.2.1 demoRipTrack "a" "c" 0 2 (by decide) (by decide) (by decide),
   C6_join_adjacent.2.2.2 demoJoinTrack "l" "r" 0 demoJoinL demoJoinR
     (by decide) (by decide) (by decide) (by decide) rfl⟩

/-- C10: a successful join keeps exactly the left clip's effect list (the
right clip's effects are dropped) while both gain envelopes survive into the
merged envelope, the right one shifted by right.start - left.start. -/
theorem C10_join_effects (track : Track) (lid rid : String) (li : Nat)
    (lc rc : Clip)
    (h1 : clipIndexInList lid track.clips = some li)
    (h2 : clipIndexInList rid track.clips = some (li + 1))
    (h3 : track.clips[li]? = some lc) (h4 : track.clips[li + 1]? = some rc)
    (hasset : lc.asset = rc.asset) :
    (∃ tr2, join_adjacent track lid rid = some (tr2, mergedClip lc rc)) ∧
    (mergedClip lc rc).effects = lc.effects ∧
    (∀ e ∈ rc.effects, e ∉ lc.effects → e ∉ (mergedClip lc rc).effects) ∧
    (∀ p ∈ lc.gain_envelope, p ∈ (mergedClip lc rc).gain_envelope) ∧
    (∀ p ∈ rc.gain_envelope,
      ({ t := p.t + (rc.start - lc.start), gain := p.gain } : GainPoint) ∈
        (mergedClip lc rc).gain_envelope) := by
  have hperm := List.mergeSort_perm
    (lc.gain_envelope ++ rc.gain_envelope.map
      (fun p => { t := p.t + (rc.start - lc.start), gain := p.gain }))
    (fun p q : GainPoint => decide (p.t ≤ q.t))
  have hmem : ∀ q : GainPoint,
      q ∈ (mergedClip lc rc).gain_envelope ↔
        q ∈ lc.gain_envelope ++ rc.gain_envelope.map
          (fun p => { t := p.t + (rc.start - lc.start), gain := p.gain }) := by
    intro q
    exact hperm.mem_iff
  refine ⟨?_, rfl, ?_, ?_, ?_⟩
  · have hj : join_adjacent track lid rid =
        some ({ track with clips := (track.clips.take li ++
            mergedClip lc rc :: track.clips.drop (li + 1 + 1)) }, mergedClip lc rc) := by
      unfold join_adjacent
      rw [h1, h2]
      simp [h3, h4, hasset]
    exact ⟨_, hj⟩
  · intro e _ he
    exact he
  · intro p hp
    exact (hmem p).2 (List.mem_append_left _ hp)
  · intro p hp
    exact (hmem _).2 (List.mem_append_right _ (List.mem_map_of_mem _ hp))

/-- C10 witness: joining the two demo clips keeps only the left effect and
both gain points. -/
theorem C10_join_effects_witness :
    (∃ tr2, join_adjacent demoJoinTrack "l" "r" =
      some (tr2, mergedClip demoJoinL demoJoinR)) ∧
    (mergedClip demoJoinL demoJoinR).effects = demoJoinL.effects ∧
    ({ type := "mosaic", params := [("blocks", 24)], keyframes := [] } : Effect) ∉
      (mergedClip demoJoinL demoJoinR).effects ∧
    ({ t := 0, gain := 1 } : GainPoint) ∈ (mergedClip demoJoinL demoJoinR).gain_envelope ∧
    ({ t := 0 + (demoJoinR.start - demoJoinL.start), gain := 2 } : GainPoint) ∈
      (mergedClip demoJoinL demoJoinR).gain_envelope := by
  have h := C10_join_effects demoJoinTrack "l" "r" 0 demoJoinL demoJoinR
    (by decide) (by decide) (by decide) (by decide) rfl
  refine ⟨h.1, h.2.1, ?_, ?_, ?_⟩
  · exact h.2.2.1 _ (by decide) (by decide)
  · exact h.2.2.2.1 _ (by decide)
  · exact h.2.2.2.2 { t := 0, gain := 2 } (by decide)

/-! ## Sortedness invariant (C4) -/

theorem sortedByStart_sortClips (clips : List Clip) : sortedByStart (sortClips clips) := by
  have h := @List.sorted_mergeSort Clip (fun a b : Clip => decide (a.start ≤ b.start))
    (fun a b c hab hbc =>
      decide_eq_true (le_trans (of_decide_eq_true hab) (of_decide_eq_true hbc)))
    (fun a b => by
      rcases le_total a.start b.start with h | h <;> simp [h])
    clips
  exact h.imp (fun hab => of_decide_eq_true hab)

theorem sortedByStart_append_middle (pre suf : List Clip) (c c2 : Clip)
    (hstart : c2.start = c.start) (h : sortedByStart (pre ++ c :: suf)) :
    sortedByStart (pre ++ c2 :: suf) := by
  unfold sortedByStart at h ⊢
  rw [List.pairwise_append] at h ⊢
  obtain ⟨hpre, hcons, hcross⟩ := h
  rw [List.pairwise_cons] at hcons
  refine ⟨hpre, List.pairwise_cons.2 ⟨fun b hb => ?_, hcons.2⟩, fun a ha b hb => ?_⟩
  · rw [hstart]
    exact hcons.1 b hb
  · rcases List.mem_cons.1 hb with hb | hb
    · rw [hb, hstart]
      exact hcross a ha c (by simp)
    · exact hcross a ha b (by simp [hb])

theorem trimClipFields_start (c : Clip) (ni no : Option ℚ) :
    (trimClipFields c ni no).start = c.start := by
  cases ni <;> cases no <;> rfl

def demoOverlapA : Clip :=
  { id := "a", asset := "x", start := 0, in_point := 0, out_point := 10 }

def demoOverlapB : Clip :=
  { id := "b", asset := "x", start := 5, in_point := 0, out_point := 5 }

def demoOverlapTrack : Track :=
  { id := "t", type := "video", clips := [demoOverlapA, demoOverlapB] }

/-- C4 counterexample: on a sorted track whose first clip overlaps the
second, an interior split past the second clip's start leaves the clip list
unsorted, because split_clip splices without re-sorting. -/
theorem C4_counterexample :
    sortedByStart demoOverlapTrack.clips ∧
    ∃ tr2 l r, split_clip demoOverlapTrack demoOverlapA.id 8 = some (tr2, l, r) ∧
      ¬ sortedByStart tr2.clips := by
  constructor
  · refine List.pairwise_cons.2 ⟨fun b hb => ?_, List.pairwise_singleton _ _⟩
    rcases List.mem_singleton.1 hb with rfl
    norm_num [demoOverlapA, demoOverlapB]
  · have hsplit := splitInClips_interior [] demoOverlapA [demoOverlapB] 8
      (by simp) (by norm_num [demoOverlapA]) (by norm_num [demoOverlapA, Clip.duration])
    have hres : split_clip demoOverlapTrack demoOverlapA.id 8 =
        some ({ demoOverlapTrack with
                clips := ((splitClipPair demoOverlapA 8).1 ::
                  (splitClipPair demoOverlapA 8).2 :: [demoOverlapB]) },
              (splitClipPair demoOverlapA 8).1, (splitClipPair demoOverlapA 8).2) := by
      unfold split_clip
      rw [show demoOverlapTrack.clips = [] ++ demoOverlapA :: [demoOverlapB] from rfl,
        hsplit]
      rfl
    refine ⟨_, _, _, hres, fun hs => ?_⟩
    have hs2 : sortedByStart ((splitClipPair demoOverlapA 8).1 ::
        (splitClipPair demoOverlapA 8).2 :: [demoOverlapB]) := hs
    have h85 : (splitClipPair demoOverlapA 8).2.start ≤ demoOverlapB.start :=
      (List.pairwise_cons.1 (List.pairwise_cons.1 hs2).2).1 demoOverlapB (by simp)
    have hrs : (splitClipPair demoOverlapA 8).2.start = 8 := rfl
    rw [hrs] at h85
    norm_num [demoOverlapB] at h85

theorem join_adjacent_some (track : Track) (lid rid : String) (tr2 : Track)
    (m : Clip) (h : join_adjacent track lid rid = some (tr2, m)) :
    ∃ pre lc rc suf, track.clips = pre ++ lc :: rc :: suf ∧ m = mergedClip lc rc ∧
      tr2.clips = pre ++ m :: suf := by
  unfold join_adjacent at h
  split at h
  · rename_i li ri heqL heqR
    split at h
    · rename_i hadj
      split at h
      · rename_i lc rc heqlc heqrc
        split at h
        · rename_i hasset
          obtain ⟨pre, cl, suf0, hdec, hlen, _⟩ :=
            clipIndexInList_some lid track.clips li heqL
          subst hadj
          have hlc : lc = cl := by
            rw [hdec, ← hlen, List.getElem?_append_right le_rfl] at heqlc
            simpa using heqlc.symm
          have hsuf0 : suf0[0]? = some rc := by
            rw [hdec, ← hlen] at heqrc
            rw [List.getElem?_append_right (by omega)] at heqrc
            simpa [Nat.sub_self] using heqrc
          cases suf0 with
          | nil => simp at hsuf0
          | cons rc0 suf =>
            have hrc : rc0 = rc := by simpa using hsuf0
            subst hrc hlc
            have hpair := Prod.mk.injEq .. ▸ (Option.some.inj h)
            have htr2 : tr2 = { track with
                clips := (track.clips.take li ++
                  mergedClip lc rc0 :: track.clips.drop (li + 1 + 1)) } :=
              hpair.1.symm
            have hm : m = mergedClip lc rc0 := hpair.2.symm
            refine ⟨pre, lc, rc0, suf, hdec, hm, ?_⟩
            have htake : track.clips.take li = pre := by
              rw [hdec, ← hlen]
              exact List.take_left _ _
            have hdrop : track.clips.drop (li + 1 + 1) = suf := by
              rw [hdec,
                show pre ++ lc :: rc0 :: suf = (pre ++ [lc, rc0]) ++ suf by simp,
                show li + 1 + 1 = (pre ++ [lc, rc0]).length by simp [← hlen]]
              exact List.drop_left _ _
            rw [htr2]
            simp only [htake, hdrop, hm]
        · simp at h
      · simp at h
    · simp at h
  · simp at h

/-- C4 amended: every Timeline Engine mutation except split_clip preserves
the sorted-by-start invariant (insert_clip and move_clip re-sort, so their
results are sorted unconditionally); split_clip preserves it only when the
split time does not exceed any following clip's start — in particular
whenever clips do not overlap — because it splices the two halves in place
without re-sorting. -/
theorem C4_sorted_invariant :
    (∀ (track : Track) (clip : Clip), sortedByStart (insert_clip track clip).clips) ∧
    (∀ (track : Track) (pre : List Clip) (clip : Clip) (suf : List Clip) (t : ℚ)
        (tr2 : Track) (l r : Clip),
        track.clips = pre ++ clip :: suf → (∀ c ∈ pre, c.id ≠ clip.id) →
        sortedByStart track.clips → (∀ c ∈ suf, t ≤ c.start) →
        split_clip track clip.id t = some (tr2, l, r) → sortedByStart tr2.clips) ∧
    (∀ (track : Track) (cid : String) (tr2 : Track),
        ripple_delete track cid = some tr2 → sortedByStart track.clips →
        sortedByStart tr2.clips) ∧
    (∀ (track : Track) (lid rid : String) (tr2 : Track) (m : Clip),
        join_adjacent track lid rid = some (tr2, m) → sortedByStart track.clips →
        sortedByStart tr2.clips) ∧
    (∀ (track : Track) (cid : String) (ns : ℚ) (tr2 : Track),
        move_clip track cid ns = some tr2 → sortedByStart tr2.clips) ∧
    (∀ (track : Track) (cid : String) (ni no : Option ℚ) (tr2 : Track),
        trim_clip track cid ni no = some tr2 → sortedByStart track.clips →
        sortedByStart tr2.clips) := by
  refine ⟨?_, ?_, ?_, ?_, ?_, ?_⟩
  · intro track clip
    exact sortedByStart_sortClips _
  · intro track pre clip suf t tr2 l r hdec hpre hsorted hTsuf hsplit
    rw [hdec] at hsorted
    unfold sortedByStart at hsorted
    rw [List.pairwise_append, List.pairwise_cons] at hsorted
    obtain ⟨hpreS, ⟨hclip_le, hsufS⟩, hcrossS⟩ := hsorted
    by_cases hb : t ≤ clip.start ∨ clip.start + clip.duration ≤ t
    · have hno : split_clip track clip.id t = some (track, clip, clip) := by
        unfold split_clip
        rw [hdec, splitInClips_noop pre clip suf t hpre hb, ← hdec]
        rfl
      rw [hno] at hsplit
      have heq := Option.some.inj hsplit
      simp only [Prod.mk.injEq] at heq
      rw [← heq.1, hdec]
      unfold sortedByStart
      rw [List.pairwise_append, List.pairwise_cons]
      exact ⟨hpreS, ⟨hclip_le, hsufS⟩, hcrossS⟩
    · push_neg at hb
      obtain ⟨h1, h2⟩ := hb
      have hint : split_clip track clip.id t =
          some ({ track with clips := (pre ++ (splitClipPair clip t).1 ::
              (splitClipPair clip t).2 :: suf) },
            (splitClipPair clip t).1, (splitClipPair clip t).2) := by
        unfold split_clip
        rw [hdec, splitInClips_interior pre clip suf t hpre h1 h2]
        rfl
      rw [hint] at hsplit
      have heq := Option.some.inj hsplit
      simp only [Prod.mk.injEq] at heq
      rw [← heq.1]
      show sortedByStart (pre ++ (splitClipPair clip t).1 ::
        (splitClipPair clip t).2 :: suf)
      have hl_start : (splitClipPair clip t).1.start = clip.start := rfl
      have hr_start : (splitClipPair clip t).2.start = t := rfl
      unfold sortedByStart
      rw [List.pairwise_append, List.pairwise_cons, List.pairwise_cons]
      refine ⟨hpreS, ⟨?_, ?_, hsufS⟩, ?_⟩
      · intro b hb2
        rcases List.mem_cons.1 hb2 with rfl | hb2
        · rw [hl_start, hr_start]
          exact le_of_lt h1
        · rw [hl_start]
          exact hclip_le b hb2
      · intro b hb2
        rw [hr_start]
        exact hTsuf b hb2
      · intro a ha b hb2
        rcases List.mem_cons.1 hb2 with rfl | hb2
        · rw [hl_start]
          exact hcrossS a ha clip (by simp)
        rcases List.mem_cons.1 hb2 with rfl | hb2
        · rw [hr_start]
          exact le_trans (hcrossS a ha clip (by simp)) (le_of_lt h1)
        · exact hcrossS a ha b (by simp [hb2])
  · intro track cid tr2 h hsorted
    unfold ripple_delete at h
    rw [Option.map_eq_some'] at h
    obtain ⟨cs, hcs, htr⟩ := h
    obtain ⟨pre, clip, suf, hdec, _, _, hout⟩ := rippleInClips_some cid track.clips cs hcs
    have htr2 : tr2.clips = pre ++ suf.map (rippleShift clip) := by
      rw [← htr, hout]
    rw [hdec] at hsorted
    unfold sortedByStart at hsorted ⊢
    rw [List.pairwise_append, List.pairwise_cons] at hsorted
    obtain ⟨hpreS, ⟨hclip_le, hsufS⟩, hcrossS⟩ := hsorted
    rw [htr2, List.pairwise_append]
    refine ⟨hpreS, ?_, ?_⟩
    · refine List.Pairwise.map _ (fun a b hab => ?_) hsufS
      show max clip.start (a.start - clip.duration) ≤
        max clip.start (b.start - clip.duration)
      exact max_le_max le_rfl (sub_le_sub_right hab _)
    · intro a ha b hb
      obtain ⟨b0, _, rfl⟩ := List.mem_map.1 hb
      exact le_trans (hcrossS a ha clip (by simp)) (le_max_left _ _)
  · intro track lid rid tr2 m h hsorted
    obtain ⟨pre, lc, rc, suf, hdec, hm, htr2⟩ := join_adjacent_some track lid rid tr2 m h
    rw [hdec] at hsorted
    unfold sortedByStart at hsorted ⊢
    rw [List.pairwise_append, List.pairwise_cons, List.pairwise_cons] at hsorted
    obtain ⟨hpreS, ⟨hlc_le, _, hsufS⟩, hcrossS⟩ := hsorted
    rw [htr2, List.pairwise_append, List.pairwise_cons]
    have hm_start : m.start = lc.start := by rw [hm]; rfl
    refine ⟨hpreS, ⟨fun b hb => ?_, hsufS⟩, ?_⟩
    · rw [hm_start]
      exact hlc_le b (by simp [hb])
    · intro a ha b hb
      rcases List.mem_cons.1 hb with rfl | hb
      · rw [hm_start]
        exact hcrossS a ha lc (by simp)
      · exact hcrossS a ha b (by simp [hb])
  · intro track cid ns tr2 h
    unfold move_clip at h
    rw [Option.map_eq_some'] at h
    obtain ⟨cs, _, htr⟩ := h
    have : tr2.clips = sortClips cs := by rw [← htr]
    rw [this]
    exact sortedByStart_sortClips _
  · intro track cid ni no tr2 h hsorted
    unfold trim_clip at h
    rw [Option.map_eq_some'] at h
    obtain ⟨cs, hcs, htr⟩ := h
    obtain ⟨pre, clip, suf, hdec, _, hout⟩ := trimInClips_some cid ni no track.clips cs hcs
    have htr2 : tr2.clips = pre ++ trimClipFields clip ni no :: suf := by
      rw [← htr, hout]
    rw [htr2]
    exact sortedByStart_append_middle pre suf clip _ (trimClipFields_start clip ni no)
      (by rw [← hdec]; exact hsorted)

/-- C4 witness: the amended invariant applied to concrete tracks — an insert
into the three-clip demo track is sorted, and a ripple delete of its middle
clip stays sorted. -/
theorem C4_sorted_invariant_witness :
    sortedByStart (insert_clip demoRipTrack demoClipA).clips ∧
    ∃ tr2, ripple_delete demoRipTrack demoRipB.id = some tr2 ∧
      sortedByStart tr2.clips := by
  have hsome : ripple_delete demoRipTrack demoRipB.id =
      some { demoRipTrack with
             clips := [demoRipA] ++ [demoRipC].map (rippleShift demoRipB) } := by
    unfold ripple_delete
    rw [show demoRipTrack.clips = [demoRipA] ++ demoRipB :: [demoRipC] from rfl,
      rippleInClips_of_decomp demoRipB.id [demoRipA] demoRipB [demoRipC] rfl (by decide)]
    rfl
  refine ⟨C4_sorted_invariant.1 demoRipTrack demoClipA,
    ⟨_, hsome, C4_sorted_invariant.2.2.1 demoRipTrack demoRipB.id _ hsome (by decide)⟩⟩

/-! ## Keyframe interpolation (src/core/compositor.py, _interpolate_keyframes) -/

/-- The zip(keyframes, keyframes[1:]) scan: first adjacent pair bracketing t. -/
def findBracket (t : ℚ) : List Keyframe → Option (Keyframe × Keyframe)
  | a :: b :: rest =>
    if a.t ≤ t ∧ t ≤ b.t then some (a, b) else findBracket t (b :: rest)
  | _ => none

/-- The linear blend of one bracketing pair; a zero-length bracket gives
factor 0 (the Python span-falsy case). -/
def lerpKeyframes (left right : Keyframe) (t : ℚ) : ℚ × ℚ × ℚ × ℚ :=
  let span := right.t - left.t
  let factor := if span = 0 then 0 else (t - left.t) / span
  (left.x + (right.x - left.x) * factor,
   left.y + (right.y - left.y) * factor,
   left.w + (right.w - left.w) * factor,
   left.h + (right.h - left.h) * factor)

def interpolateKeyframes : List Keyframe → ℚ → ℚ × ℚ × ℚ × ℚ
  | [], _ => (0, 0, 1, 1)
  | first :: rest, t =>
    if t ≤ first.t then (first.x, first.y, first.w, first.h)
    else
      let last := (first :: rest).getLast (List.cons_ne_nil first rest)
      if last.t ≤ t then (last.x, last.y, last.w, last.h)
      else
        match findBracket t (first :: rest) with
        | some lr => lerpKeyframes lr.1 lr.2 t
        | none => (last.x, last.y, last.w, last.h)

theorem interp_head (k : Keyframe) (ks : List Keyframe) (t : ℚ) (h : t ≤ k.t) :
    interpolateKeyframes (k :: ks) t = (k.x, k.y, k.w, k.h) := by
  rw [interpolateKeyframes, if_pos h]

theorem interp_last (ks : List Keyframe) (lk : Keyframe) (t : ℚ)
    (hasc : ks.Pairwise (fun p q => p.t < q.t)) (hlast : ks.getLast? = some lk)
    (hge : lk.t ≤ t) :
    interpolateKeyframes ks t = (lk.x, lk.y, lk.w, lk.h) := by
  cases ks with
  | nil => simp at hlast
  | cons first rest =>
    cases rest with
    | nil =>
      have hfk : lk = first := by simpa using hlast.symm
      subst hfk
      by_cases ht : t ≤ lk.t
      · rw [interpolateKeyframes, if_pos ht]
      · rw [interpolateKeyframes, if_neg ht]
        have : (lk :: []).getLast (List.cons_ne_nil lk []) = lk := rfl
        rw [this, if_pos hge]
    | cons second rest2 =>
      have hne : second :: rest2 ≠ [] := List.cons_ne_nil _ _
      have hmem : lk ∈ second :: rest2 := by
        rw [List.getLast?_cons_cons, List.getLast?_eq_getLast _ hne] at hlast
        exact Option.some.inj hlast ▸ List.getLast_mem hne
      have hfirst_lt : first.t < lk.t :=
        (List.pairwise_cons.1 hasc).1 lk hmem
      have hnott : ¬ t ≤ first.t := not_le.2 (lt_of_lt_of_le hfirst_lt hge)
      rw [interpolateKeyframes, if_neg hnott]
      have hgl : (first :: second :: rest2).getLast
          (List.cons_ne_nil first (second :: rest2)) = lk := by
        have h2 := List.getLast?_eq_getLast (first :: second :: rest2)
          (List.cons_ne_nil first (second :: rest2))
        rw [List.getLast?_cons_cons, List.getLast?_eq_getLast _ hne] at h2 hlast
        rw [Option.some.inj h2.symm]
        exact Option.some.inj hlast
      rw [hgl, if_pos hge]

theorem findBracket_eq (t : ℚ) :
    ∀ (pre : List Keyframe) (a b : Keyframe) (suf : List Keyframe),
      (∀ y ∈ pre ++ [a], y.t < t) → t ≤ b.t →
      findBracket t (pre ++ a :: b :: suf) = some (a, b)
  | [], a, b, suf, hy, hb => by
    rw [List.nil_append, findBracket,
      if_pos ⟨le_of_lt (hy a (by simp)), hb⟩]
  | [x], a, b, suf, hy, hb => by
    have hna : ¬(x.t ≤ t ∧ t ≤ a.t) := by
      rintro ⟨_, hta⟩
      exact absurd (hy a (by simp)) (not_lt.2 hta)
    show findBracket t (x :: a :: b :: suf) = some (a, b)
    rw [findBracket, if_neg hna]
    exact findBracket_eq t [] a b suf
      (fun y hy2 => hy y (by simp at hy2 ⊢; exact Or.inr hy2)) hb
  | x :: z :: pre, a, b, suf, hy, hb => by
    have hnz : ¬(x.t ≤ t ∧ t ≤ z.t) := by
      rintro ⟨_, htz⟩
      exact absurd (hy z (by simp)) (not_lt.2 htz)
    show findBracket t (x :: z :: (pre ++ a :: b :: suf)) = some (a, b)
    rw [findBracket, if_neg hnz]
    exact findBracket_eq t (z :: pre) a b suf
      (fun y hy2 => hy y (by simp at hy2 ⊢; tauto)) hb

theorem mem_of_getLast?_eq {α : Type} (l : List α) (z : α)
    (h : l.getLast? = some z) : z ∈ l := by
  cases l with
  | nil => simp at h
  | cons x xs =>
    have hgl := List.getLast?_eq_getLast (x :: xs) (List.cons_ne_nil _ _)
    rw [h] at hgl
    rw [Option.some.inj hgl]
    exact List.getLast_mem _

theorem interp_bracket (pre : List Keyframe) (a b : Keyframe)
    (suf : List Keyframe) (t : ℚ)
    (hasc : (pre ++ a :: b :: suf).Pairwise (fun p q => p.t < q.t))
    (h1 : a.t < t) (h2 : t ≤ b.t) (h3 : suf = [] → t < b.t) :
    interpolateKeyframes (pre ++ a :: b :: suf) t = lerpKeyframes a b t := by
  have hylt : ∀ y ∈ pre ++ [a], y.t < t := by
    intro y hy
    rcases List.mem_append.1 hy with hy | hy
    · have hrel := (List.pairwise_append.1 hasc).2.2 y hy a (by simp)
      exact lt_trans hrel h1
    · rw [List.mem_singleton.1 hy]
      exact h1
  have hbracket := findBracket_eq t pre a b suf hylt h2
  obtain ⟨first, rest, hfr⟩ : ∃ first rest, pre ++ a :: b :: suf = first :: rest := by
    cases pre with
    | nil => exact ⟨a, b :: suf, rfl⟩
    | cons x l => exact ⟨x, l ++ a :: b :: suf, rfl⟩
  have hfirst_mem : first ∈ pre ++ [a] := by
    cases pre with
    | nil =>
      rw [List.nil_append] at hfr
      simp [(List.cons.injEq .. ▸ hfr).1.symm]
    | cons x l =>
      simp [(List.cons.injEq .. ▸ hfr).1.symm]
  have hnott : ¬ t ≤ first.t := not_le.2 (hylt first hfirst_mem)
  have hfullne : (first :: rest : List Keyframe) ≠ [] := List.cons_ne_nil _ _
  have hlastq : (first :: rest).getLast? = (b :: suf).getLast? := by
    rw [← hfr, show pre ++ a :: b :: suf = (pre ++ [a]) ++ b :: suf by simp]
    exact List.getLast?_append_of_ne_nil _ (List.cons_ne_nil _ _)
  obtain ⟨lk, hlk⟩ : ∃ lk, (b :: suf).getLast? = some lk := by
    cases hbs : (b :: suf).getLast? with
    | none => simp at hbs
    | some z => exact ⟨z, rfl⟩
  have hlkmem : lk ∈ b :: suf := by
    have hgl := List.getLast?_eq_getLast (b :: suf) (List.cons_ne_nil _ _)
    rw [hlk] at hgl
    rw [Option.some.inj hgl]
    exact List.getLast_mem _
  have htlt : t < lk.t := by
    rcases List.mem_cons.1 hlkmem with rfl | hmem2
    · cases hs : suf with
      | nil => exact h3 hs
      | cons c l2 =>
        exfalso
        rw [hs, List.getLast?_cons_cons] at hlk
        have hmem3 := mem_of_getLast?_eq _ _ hlk
        have hp := List.pairwise_append.1 hasc
        have hcons2 := List.pairwise_cons.1 (List.pairwise_cons.1 hp.2.1).2
        exact lt_irrefl _ (hcons2.1 _ (hs.symm ▸ hmem3))
    · have hp := List.pairwise_append.1 hasc
      have hcons2 := List.pairwise_cons.1 (List.pairwise_cons.1 hp.2.1).2
      exact lt_of_le_of_lt h2 (hcons2.1 lk hmem2)
  have hgetlast : (first :: rest).getLast hfullne = lk := by
    have hgl := List.getLast?_eq_getLast (first :: rest) hfullne
    rw [hlastq, hlk] at hgl
    exact (Option.some.inj hgl).symm
  have hln : ¬ ((first :: rest).getLast hfullne).t ≤ t := by
    rw [hgetlast]
    exact not_le.2 htlt
  rw [hfr] at hbracket
  rw [hfr, interpolateKeyframes, if_neg hnott, if_neg hln, hbracket]

def kfDupA : Keyframe := { t := 5, x := 0, y := 0, w := 0, h := 0 }

def kfDupB : Keyframe := { t := 5, x := 1, y := 1, w := 1, h := 1 }

/-- C7 counterexample: with two keyframes sharing t = 5 (an ascending but not
strictly ascending list), the query t = 5 is at the last keyframe's t, yet
the code returns the FIRST keyframe's region, not the last one's. -/
theorem C7_counterexample :
    kfDupB.t ≤ (5 : ℚ) ∧ kfDupB ∈ [kfDupA, kfDupB] ∧ (5 : ℚ) = kfDupB.t ∧
    interpolateKeyframes [kfDupA, kfDupB] 5 ≠
      (kfDupB.x, kfDupB.y, kfDupB.w, kfDupB.h) := by
  refine ⟨le_refl _, by simp, rfl, ?_⟩
  rw [show interpolateKeyframes [kfDupA, kfDupB] 5 =
      (kfDupA.x, kfDupA.y, kfDupA.w, kfDupA.h) from
    interp_head kfDupA [kfDupB] 5 le_rfl]
  norm_num [kfDupA, kfDupB]

/-- C7 amended: over a STRICTLY ascending keyframe list, interpolation is:
(0,0,1,1) when empty; the first region when t is at or before the first
keyframe; the last region when at or after the last; the exact region at an
exact keyframe hit; the linear blend of the bracketing pair strictly between
two adjacent keyframes — where a zero-length bracket is treated as factor 0
(returning the left region). -/
theorem C7_keyframe_interpolation :
    (∀ t : ℚ, interpolateKeyframes [] t = (0, 0, 1, 1)) ∧
    (∀ (k : Keyframe) (ks : List Keyframe) (t : ℚ), t ≤ k.t →
        interpolateKeyframes (k :: ks) t = (k.x, k.y, k.w, k.h)) ∧
    (∀ (ks : List Keyframe) (lk : Keyframe) (t : ℚ),
        ks.Pairwise (fun p q => p.t < q.t) → ks.getLast? = some lk → lk.t ≤ t →
        interpolateKeyframes ks t = (lk.x, lk.y, lk.w, lk.h)) ∧
    (∀ (ks : List Keyframe) (k : Keyframe),
        ks.Pairwise (fun p q => p.t < q.t) → k ∈ ks →
        interpolateKeyframes ks k.t = (k.x, k.y, k.w, k.h)) ∧
    (∀ (pre : List Keyframe) (a b : Keyframe) (suf : List Keyframe) (t : ℚ),
        (pre ++ a :: b :: suf).Pairwise (fun p q => p.t < q.t) →
        a.t < t → t < b.t →
        interpolateKeyframes (pre ++ a :: b :: suf) t = lerpKeyframes a b t) ∧
    (∀ (l r : Keyframe) (t : ℚ), l.t ≠ r.t →
        lerpKeyframes l r t =
          (l.x + (r.x - l.x) * ((t - l.t) / (r.t - l.t)),
           l.y + (r.y - l.y) * ((t - l.t) / (r.t - l.t)),
           l.w + (r.w - l.w) * ((t - l.t) / (r.t - l.t)),
           l.h + (r.h - l.h) * ((t - l.t) / (r.t - l.t)))) ∧
    (∀ (l r : Keyframe) (t : ℚ), l.t = r.t →
        lerpKeyframes l r t = (l.x, l.y, l.w, l.h)) := by
  refine ⟨fun t => rfl, interp_head, interp_last, ?_, ?_, ?_, ?_⟩
  · intro ks k hasc hk
    obtain ⟨l1, l2, hdec⟩ := List.append_of_mem hk
    subst hdec
    rcases List.eq_nil_or_concat l1 with rfl | ⟨init, a, rfl⟩
    · exact interp_head k l2 k.t le_rfl
    · have hre : init.concat a ++ k :: l2 = init ++ a :: k :: l2 := by
        simp [List.concat_eq_append]
      rw [hre] at hasc ⊢
      cases l2 with
      | nil =>
        have hlast : (init ++ a :: k :: ([] : List Keyframe)).getLast? = some k := by
          rw [show init ++ a :: k :: ([] : List Keyframe) = (init ++ [a]) ++ [k] by simp]
          exact List.getLast?_concat _
        exact interp_last _ k k.t hasc hlast le_rfl
      | cons c l2 =>
        have h1 : a.t < k.t := by
          have hp := List.pairwise_append.1 hasc
          exact (List.pairwise_cons.1 hp.2.1).1 k (by simp)
        rw [interp_bracket init a k (c :: l2) k.t hasc h1 le_rfl
          (fun h => by simp at h)]
        have hspan : k.t - a.t ≠ 0 := sub_ne_zero_of_ne (ne_of_gt h1)
        rw [lerpKeyframes, if_neg hspan, div_self hspan]
        simp only [Prod.mk.injEq]
        refine ⟨by ring, by ring, by ring, by ring⟩
  · intro pre a b suf t hasc h1 h2
    exact interp_bracket pre a b suf t hasc h1 (le_of_lt h2) (fun _ => h2)
  · intro l r t hne
    have hspan : r.t - l.t ≠ 0 := sub_ne_zero_of_ne (Ne.symm hne)
    rw [lerpKeyframes, if_neg hspan]
  · intro l r t heq
    have hspan : r.t - l.t = 0 := by rw [heq, sub_self]
    rw [lerpKeyframes, if_pos hspan]
    simp only [Prod.mk.injEq]
    refine ⟨by ring, by ring, by ring, by ring⟩

def kfLo : Keyframe := { t := 0, x := 0, y := 0, w := 1, h := 1 }

def kfHi : Keyframe := { t := 10, x := 1, y := 0, w := 1, h := 1 }

/-- C7 witness: the amended interpolation facts at a concrete strictly
ascending two-keyframe list. -/
theorem C7_keyframe_interpolation_witness :
    interpolateKeyframes [] 7 = (0, 0, 1, 1) ∧
    interpolateKeyframes [kfLo, kfHi] (-1) = (kfLo.x, kfLo.y, kfLo.w, kfLo.h) ∧
    interpolateKeyframes [kfLo, kfHi] 12 = (kfHi.x, kfHi.y, kfHi.w, kfHi.h) ∧
    interpolateKeyframes [kfLo, kfHi] kfHi.t = (kfHi.x, kfHi.y, kfHi.w, kfHi.h) ∧
    interpolateKeyframes [kfLo, kfHi] 5 = (1/2, 0, 1, 1) := by
  have hasc : ([kfLo, kfHi] : List Keyframe).Pairwise (fun p q => p.t < q.t) := by
    refine List.pairwise_cons.2 ⟨fun b hb => ?_, List.pairwise_singleton _ _⟩
    rcases List.mem_singleton.1 hb with rfl
    norm_num [kfLo, kfHi]
  refine ⟨C7_keyframe_interpolation.1 7,
    C7_keyframe_interpolation.2.1 kfLo [kfHi] (-1) (by norm_num [kfLo]),
    C7_keyframe_interpolation.2.2.1 [kfLo, kfHi] kfHi 12 hasc rfl (by norm_num [kfHi]),
    C7_keyframe_interpolation.2.2.2.1 [kfLo, kfHi] kfHi hasc (by simp), ?_⟩
  have h5 := C7_keyframe_interpolation.2.2.2.2.1 [] kfLo kfHi [] 5 hasc
    (by norm_num [kfLo]) (by norm_num [kfHi])
  rw [List.nil_append] at h5
  rw [h5, C7_keyframe_interpolation.2.2.2.2.2.1 kfLo kfHi 5 (by norm_num [kfLo, kfHi])]
  norm_num [kfLo, kfHi]

/-! ## Frame cache (src/core/decoder.py, FrameCache)

The two Python dicts _entries and _order are modelled as association lists in
insertion order (dict update keeps the position of an existing key, a new key
is appended, pop removes it), and min(_order, key=_order.get) is a left fold
keeping the first minimum. The decoded frame type is a parameter. -/

abbrev CacheHandle := String × ℤ

structure FrameCache (V : Type) where
  capacity : Nat
  entries : List (CacheHandle × V)
  order : List (CacheHandle × Nat)
  clock : Nat

def emptyFrameCache (V : Type) (capacity : Nat) : FrameCache V :=
  { capacity := capacity, entries := [], order := [], clock := 0 }

def dictSet {β : Type} (m : List (CacheHandle × β)) (k : CacheHandle) (v : β) :
    List (CacheHandle × β) :=
  if m.any (fun p => decide (p.1 = k)) then
    m.map (fun p => if p.1 = k then (k, v) else p)
  else m ++ [(k, v)]

def dictGet {β : Type} (m : List (CacheHandle × β)) (k : CacheHandle) : Option β :=
  (m.find? (fun p => decide (p.1 = k))).map Prod.snd

def dictPop {β : Type} (m : List (CacheHandle × β)) (k : CacheHandle) :
    List (CacheHandle × β) :=
  m.filter (fun p => decide (p.1 ≠ k))

def minStep (acc : Option (CacheHandle × Nat)) (p : CacheHandle × Nat) :
    Option (CacheHandle × Nat) :=
  match acc with
  | none => some p
  | some q => if p.2 < q.2 then some p else some q

def minByVal (l : List (CacheHandle × Nat)) : Option (CacheHandle × Nat) :=
  l.foldl minStep none

def FrameCache.get {V : Type} (c : FrameCache V) (asset_id : String)
    (key_ticks : ℤ) : Option V × FrameCache V :=
  match dictGet c.entries (asset_id, key_ticks) with
  | none => (none, c)
  | some frame =>
    (some frame,
     { c with clock := c.clock + 1,
              order := dictSet c.order (asset_id, key_ticks) (c.clock + 1) })

def FrameCache.put {V : Type} (c : FrameCache V) (asset_id : String)
    (key_ticks : ℤ) (frame : V) : FrameCache V :=
  if (dictSet c.entries (asset_id, key_ticks) frame).length > c.capacity then
    match minByVal (dictSet c.order (asset_id, key_ticks) (c.clock + 1)) with
    | some lru =>
      { c with
        entries := dictPop (dictSet c.entries (asset_id, key_ticks) frame) lru.1,
        order := dictPop (dictSet c.order (asset_id, key_ticks) (c.clock + 1)) lru.1,
        clock := c.clock + 1 }
    | none =>
      { c with entries := dictSet c.entries (asset_id, key_ticks) frame,
               order := dictSet c.order (asset_id, key_ticks) (c.clock + 1),
               clock := c.clock + 1 }
  else
    { c with entries := dictSet c.entries (asset_id, key_ticks) frame,
             order := dictSet c.order (asset_id, key_ticks) (c.clock + 1),
             clock := c.clock + 1 }

/-- The state invariant tying the two dicts together: same keys, unique keys,
unique logical-clock stamps, stamps bounded by the clock. -/
def FrameCache.WF {V : Type} (c : FrameCache V) : Prop :=
  c.entries.map Prod.fst = c.order.map Prod.fst ∧
  (c.order.map Prod.fst).Nodup ∧
  (c.order.map Prod.snd).Nodup ∧
  ∀ p ∈ c.order, p.2 ≤ c.clock

instance {V : Type} [DecidableEq V] (c : FrameCache V) : Decidable c.WF := by
  unfold FrameCache.WF; infer_instance

theorem dictSet_fresh {β : Type} (m : List (CacheHandle × β)) (k : CacheHandle)
    (v : β) (h : k ∉ m.map Prod.fst) : dictSet m k v = m ++ [(k, v)] := by
  unfold dictSet
  rw [if_neg]
  simp only [List.any_eq_true, decide_eq_true_eq, not_exists]
  rintro p ⟨hp, hk⟩
  exact h (hk ▸ List.mem_map_of_mem Prod.fst hp)

theorem dictSet_existing_keys {β : Type} (m : List (CacheHandle × β))
    (k : CacheHandle) (v : β) (h : k ∈ m.map Prod.fst) :
    (dictSet m k v).map Prod.fst = m.map Prod.fst := by
  obtain ⟨p0, hp0, hk0⟩ := List.mem_map.1 h
  unfold dictSet
  rw [if_pos]
  · rw [List.map_map]
    refine List.map_congr_left (fun p hp => ?_)
    by_cases hpk : p.1 = k
    · simp [hpk]
    · simp [hpk]
  · simp only [List.any_eq_true, decide_eq_true_eq]
    exact ⟨p0, hp0, hk0⟩

theorem mem_dictSet_existing {β : Type} (m : List (CacheHandle × β))
    (k : CacheHandle) (v : β) (q : CacheHandle × β) (hk : k ∈ m.map Prod.fst)
    (hq : q ∈ dictSet m k v) : q = (k, v) ∨ (q ∈ m ∧ q.1 ≠ k) := by
  obtain ⟨p0, hp0, hk0⟩ := List.mem_map.1 hk
  unfold dictSet at hq
  rw [if_pos (by simp only [List.any_eq_true, decide_eq_true_eq]; exact ⟨p0, hp0, hk0⟩)]
    at hq
  obtain ⟨p, hp, hpq⟩ := List.mem_map.1 hq
  by_cases hpk : p.1 = k
  · rw [if_pos hpk] at hpq
    exact Or.inl hpq.symm
  · rw [if_neg hpk] at hpq
    exact Or.inr ⟨hpq ▸ hp, hpq ▸ hpk⟩

theorem dictPop_keys {β : Type} (m : List (CacheHandle × β)) (k : CacheHandle) :
    (dictPop m k).map Prod.fst = (m.map Prod.fst).filter (fun h => decide (h ≠ k)) := by
  induction m with
  | nil => rfl
  | cons p m ih =>
    by_cases hp : p.1 = k
    · simp [dictPop, List.filter_cons, hp] at ih ⊢
      exact ih
    · simp [dictPop, List.filter_cons, hp] at ih ⊢
      exact ih

theorem dictPop_of_not_mem {β : Type} (m : List (CacheHandle × β))
    (k : CacheHandle) (h : k ∉ m.map Prod.fst) : dictPop m k = m := by
  induction m with
  | nil => rfl
  | cons p m ih =>
    have hp : p.1 ≠ k := fun he => h (by simp [← he])
    have hm : k ∉ m.map Prod.fst := fun hm2 => h (by simp [hm2])
    unfold dictPop at ih ⊢
    rw [List.filter_cons, if_pos (by simp [hp]), ih hm]

theorem dictPop_length {β : Type} (m : List (CacheHandle × β)) (k : CacheHandle)
    (hnd : (m.map Prod.fst).Nodup) (hk : k ∈ m.map Prod.fst) :
    (dictPop m k).length + 1 = m.length := by
  induction m with
  | nil => simp at hk
  | cons p m ih =>
    rw [List.map_cons, List.nodup_cons] at hnd
    by_cases hp : p.1 = k
    · have hnot : k ∉ m.map Prod.fst := hp ▸ hnd.1
      have hstep : dictPop (p :: m) k = dictPop m k := by
        unfold dictPop
        rw [List.filter_cons, if_neg (by simp [hp])]
      rw [hstep, dictPop_of_not_mem m k hnot]
      simp
    · have hk2 : k ∈ m.map Prod.fst := by
        rcases List.mem_cons.1 (List.map_cons .. ▸ hk) with h | h
        · exact absurd h.symm hp
        · exact h
      have hstep : dictPop (p :: m) k = p :: dictPop m k := by
        unfold dictPop
        rw [List.filter_cons, if_pos (by simp [hp])]
      rw [hstep, List.length_cons, List.length_cons, ← ih hnd.2 hk2]

theorem minByVal_go : ∀ (l : List (CacheHandle × Nat)) (q : CacheHandle × Nat),
    ∃ p, l.foldl minStep (some q) = some p ∧ (p ∈ l ∨ p = q) ∧ p.2 ≤ q.2 ∧
      ∀ x ∈ l, p.2 ≤ x.2
  | [], q => ⟨q, rfl, Or.inr rfl, le_rfl, by simp⟩
  | x :: l, q => by
    rw [List.foldl_cons]
    by_cases hx : x.2 < q.2
    · obtain ⟨p, hfold, hmem, hle, hall⟩ := minByVal_go l x
      rw [show minStep (some q) x = some x by simp [minStep, hx]]
      refine ⟨p, hfold, ?_, le_trans hle (le_of_lt hx), fun y hy => ?_⟩
      · rcases hmem with h | h
        · exact Or.inl (List.mem_cons_of_mem _ h)
        · exact Or.inl (h ▸ List.mem_cons_self _ _)
      · rcases List.mem_cons.1 hy with rfl | hy
        · exact hle
        · exact hall y hy
    · obtain ⟨p, hfold, hmem, hle, hall⟩ := minByVal_go l q
      rw [show minStep (some q) x = some q by simp [minStep, hx]]
      refine ⟨p, hfold, ?_, hle, fun y hy => ?_⟩
      · rcases hmem with h | h
        · exact Or.inl (List.mem_cons_of_mem _ h)
        · exact Or.inr h
      · rcases List.mem_cons.1 hy with rfl | hy
        · exact le_trans hle (not_lt.1 hx)
        · exact hall y hy

theorem minByVal_spec (l : List (CacheHandle × Nat)) (p : CacheHandle × Nat)
    (h : minByVal l = some p) : p ∈ l ∧ ∀ x ∈ l, p.2 ≤ x.2 := by
  cases l with
  | nil => simp [minByVal] at h
  | cons x l =>
    obtain ⟨p2, hfold, hmem, hle, hall⟩ := minByVal_go l x
    rw [minByVal, List.foldl_cons, show minStep none x = some x from rfl, hfold] at h
    obtain rfl : p2 = p := Option.some.inj h
    refine ⟨?_, fun y hy => ?_⟩
    · rcases hmem with h2 | h2
      · exact List.mem_cons_of_mem _ h2
      · exact h2 ▸ List.mem_cons_self _ _
    · rcases List.mem_cons.1 hy with rfl | hy
      · exact hle
      · exact hall y hy

theorem minByVal_isSome (l : List (CacheHandle × Nat)) (hne : l ≠ []) :
    ∃ p, minByVal l = some p := by
  cases l with
  | nil => exact absurd rfl hne
  | cons x l =>
    obtain ⟨p, hfold, _, _, _⟩ := minByVal_go l x
    exact ⟨p, by rw [minByVal, List.foldl_cons, show minStep none x = some x from rfl, hfold]⟩

theorem minByVal_append_big (l : List (CacheHandle × Nat)) (x : CacheHandle × Nat)
    (hne : l ≠ []) (hbig : ∀ q ∈ l, q.2 < x.2) :
    minByVal (l ++ [x]) = minByVal l := by
  obtain ⟨p, hp⟩ := minByVal_isSome l hne
  have hspec := minByVal_spec l p hp
  rw [minByVal, List.foldl_append, ← minByVal, hp]
  have hnot : ¬ x.2 < p.2 := not_lt.2 (le_of_lt (hbig p hspec.1))
  simp [minStep, hnot]

theorem dictGet_isSome {β : Type} (m : List (CacheHandle × β)) (k : CacheHandle)
    (h : k ∈ m.map Prod.fst) : ∃ v, dictGet m k = some v := by
  obtain ⟨p, hp, hk⟩ := List.mem_map.1 h
  have hfind : (m.find? (fun p2 => decide (p2.1 = k))).isSome :=
    List.find?_isSome.2 ⟨p, hp, by simp [hk]⟩
  obtain ⟨q, hq⟩ := Option.isSome_iff_exists.1 hfind
  exact ⟨q.2, by unfold dictGet; rw [hq]; rfl⟩

theorem exists_mem_ne {α : Type} (l : List α) (x : α) (hnd : l.Nodup)
    (hlen : 2 ≤ l.length) : ∃ y ∈ l, y ≠ x := by
  cases l with
  | nil => simp at hlen
  | cons y1 ltail =>
    cases ltail with
    | nil => simp at hlen
    | cons y2 rest =>
      by_cases h1 : y1 = x
      · subst h1
        refine ⟨y2, by simp, fun he => ?_⟩
        exact (List.nodup_cons.1 hnd).1 (he ▸ List.mem_cons_self _ _)
      · exact ⟨y1, by simp, h1⟩

/-- C2 witness helper facts are instances of the three conjuncts below. -/
theorem C2_frame_cache_lru :
    (∀ (V : Type) (c : FrameCache V) (a : String) (t : ℤ) (f : V),
        c.WF → c.entries.length ≤ c.capacity →
        (c.put a t f).entries.length ≤ c.capacity) ∧
    (∀ (V : Type) (c : FrameCache V) (a : String) (t : ℤ) (f : V),
        c.WF → c.entries.length = c.capacity → 1 ≤ c.capacity →
        (a, t) ∉ c.entries.map Prod.fst →
        ∃ lp ∈ c.order, (∀ q ∈ c.order, lp.2 ≤ q.2) ∧
          (c.put a t f).entries.map Prod.fst =
            ((c.entries.map Prod.fst).filter (fun h => decide (h ≠ lp.1))) ++ [(a, t)] ∧
          (c.put a t f).entries.length = c.capacity) ∧
    (∀ (V : Type) (c : FrameCache V) (a : String) (t : ℤ) (a2 : String) (t2 : ℤ)
        (f : V),
        c.WF → c.entries.length = c.capacity → 2 ≤ c.capacity →
        (a, t) ∈ c.entries.map Prod.fst → (a2, t2) ∉ c.entries.map Prod.fst →
        (a, t) ∈ (((c.get a t).2).put a2 t2 f).entries.map Prod.fst) := by
  refine ⟨?_, ?_, ?_⟩
  · intro V c a t f hWF hle
    unfold FrameCache.put
    by_cases hmem : (a, t) ∈ c.entries.map Prod.fst
    · have hlen : (dictSet c.entries (a, t) f).length = c.entries.length := by
        have hk := congrArg List.length (dictSet_existing_keys c.entries (a, t) f hmem)
        simpa using hk
      rw [if_neg (by rw [hlen]; exact not_lt.2 hle)]
      show (dictSet c.entries (a, t) f).length ≤ c.capacity
      rw [hlen]
      exact hle
    · have hset := dictSet_fresh c.entries (a, t) f hmem
      have hlen : (dictSet c.entries (a, t) f).length = c.entries.length + 1 := by
        rw [hset]
        simp
      by_cases hover : c.entries.length + 1 > c.capacity
      · rw [if_pos (by rw [hlen]; exact hover)]
        have hfreshO : (a, t) ∉ c.order.map Prod.fst := hWF.1 ▸ hmem
        have hsetO := dictSet_fresh c.order (a, t) (c.clock + 1) hfreshO
        have hne : dictSet c.order (a, t) (c.clock + 1) ≠ [] := by
          rw [hsetO]
          simp
        obtain ⟨lru, hlru⟩ := minByVal_isSome _ hne
        rw [hlru]
        show (dictPop (dictSet c.entries (a, t) f) lru.1).length ≤ c.capacity
        have hkeysE : (dictSet c.entries (a, t) f).map Prod.fst =
            c.entries.map Prod.fst ++ [(a, t)] := by
          rw [hset]
          simp
        have hkeysO : (dictSet c.order (a, t) (c.clock + 1)).map Prod.fst =
            c.order.map Prod.fst ++ [(a, t)] := by
          rw [hsetO]
          simp
        have hnd : ((dictSet c.entries (a, t) f).map Prod.fst).Nodup := by
          rw [hkeysE]
          refine List.Nodup.append (hWF.1 ▸ hWF.2.1) (List.nodup_singleton _) ?_
          intro x hx hx2
          rw [List.mem_singleton.1 hx2] at hx
          exact hmem hx
        have hmemk : lru.1 ∈ (dictSet c.entries (a, t) f).map Prod.fst := by
          have hm := List.mem_map_of_mem Prod.fst (minByVal_spec _ lru hlru).1
          rw [hkeysO, ← hWF.1, ← hkeysE] at hm
          exact hm
        have hpop := dictPop_length (dictSet c.entries (a, t) f) lru.1 hnd hmemk
        omega
      · rw [if_neg (by rw [hlen]; exact hover)]
        show (dictSet c.entries (a, t) f).length ≤ c.capacity
        omega
  · intro V c a t f hWF hfull hcap hfresh
    have hset := dictSet_fresh c.entries (a, t) f hfresh
    have hfreshO : (a, t) ∉ c.order.map Prod.fst := hWF.1 ▸ hfresh
    have hsetO := dictSet_fresh c.order (a, t) (c.clock + 1) hfreshO
    have hlenO : c.order.length = c.capacity := by
      have hk := congrArg List.length hWF.1
      simp only [List.length_map] at hk
      omega
    have hneO : c.order ≠ [] := by
      intro h0
      rw [h0] at hlenO
      simp at hlenO
      omega
    obtain ⟨lp, hlp⟩ := minByVal_isSome c.order hneO
    have hspec := minByVal_spec c.order lp hlp
    have hstamps : ∀ q ∈ c.order, q.2 < c.clock + 1 :=
      fun q hq => Nat.lt_succ_of_le (hWF.2.2.2 q hq)
    have hminOrd : minByVal (dictSet c.order (a, t) (c.clock + 1)) = some lp := by
      rw [hsetO, minByVal_append_big c.order _ hneO hstamps, hlp]
    have hlen : (dictSet c.entries (a, t) f).length = c.capacity + 1 := by
      rw [hset]
      simp [hfull]
    have hput : c.put a t f = { c with
        entries := dictPop (dictSet c.entries (a, t) f) lp.1,
        order := dictPop (dictSet c.order (a, t) (c.clock + 1)) lp.1,
        clock := c.clock + 1 } := by
      unfold FrameCache.put
      rw [if_pos (by rw [hlen]; omega), hminOrd]
    have hlpne : (a, t) ≠ lp.1 := by
      intro he
      have hm := List.mem_map_of_mem Prod.fst hspec.1
      rw [← hWF.1] at hm
      exact hfresh (he ▸ hm)
    have hkeysE : (dictSet c.entries (a, t) f).map Prod.fst =
        c.entries.map Prod.fst ++ [(a, t)] := by
      rw [hset]
      simp
    have hnd : ((dictSet c.entries (a, t) f).map Prod.fst).Nodup := by
      rw [hkeysE]
      refine List.Nodup.append (hWF.1 ▸ hWF.2.1) (List.nodup_singleton _) ?_
      intro x hx hx2
      rw [List.mem_singleton.1 hx2] at hx
      exact hfresh hx
    have hmemk : lp.1 ∈ (dictSet c.entries (a, t) f).map Prod.fst := by
      have hm := List.mem_map_of_mem Prod.fst hspec.1
      rw [← hWF.1] at hm
      rw [hkeysE]
      exact List.mem_append_left _ hm
    refine ⟨lp, hspec.1, hspec.2, ?_, ?_⟩
    · rw [hput]
      show (dictPop (dictSet c.entries (a, t) f) lp.1).map Prod.fst = _
      rw [dictPop_keys, hkeysE, List.filter_append]
      have hsing : ([(a, t)] : List CacheHandle).filter
          (fun h => decide (h ≠ lp.1)) = [(a, t)] := by
        rw [List.filter_cons, if_pos (by simp [hlpne])]
        rfl
      rw [hsing]
    · rw [hput]
      show (dictPop (dictSet c.entries (a, t) f) lp.1).length = c.capacity
      have hpop := dictPop_length (dictSet c.entries (a, t) f) lp.1 hnd hmemk
      omega
  · intro V c a t a2 t2 f hWF hfull hcap hmem hfresh
    obtain ⟨v, hv⟩ := dictGet_isSome c.entries (a, t) hmem
    have hmemO : (a, t) ∈ c.order.map Prod.fst := hWF.1 ▸ hmem
    have hget : (c.get a t).2 =
        { c with clock := c.clock + 1, order := dictSet c.order (a, t) (c.clock + 1) } := by
      unfold FrameCache.get
      rw [hv]
    have hkeys2 : (dictSet c.order (a, t) (c.clock + 1)).map Prod.fst =
        c.order.map Prod.fst := dictSet_existing_keys _ _ _ hmemO
    have hlenO : c.order.length = c.capacity := by
      have hk := congrArg List.length hWF.1
      simp only [List.length_map] at hk
      omega
    have hset2 := dictSet_fresh c.entries (a2, t2) f hfresh
    have hfresh2O : (a2, t2) ∉ (dictSet c.order (a, t) (c.clock + 1)).map Prod.fst := by
      rw [hkeys2, ← hWF.1]
      exact hfresh
    have hset2O := dictSet_fresh (dictSet c.order (a, t) (c.clock + 1)) (a2, t2)
      (c.clock + 1 + 1) hfresh2O
    have hne2 : dictSet c.order (a, t) (c.clock + 1) ≠ [] := by
      intro h0
      have hk := congrArg List.length hkeys2
      rw [h0] at hk
      simp only [List.map_nil, List.length_nil, List.length_map] at hk
      omega
    obtain ⟨lp, hlp⟩ := minByVal_isSome _ hne2
    have hspec := minByVal_spec _ lp hlp
    have hstamps2 : ∀ q ∈ dictSet c.order (a, t) (c.clock + 1),
        q.2 < c.clock + 1 + 1 := by
      intro q hq
      rcases mem_dictSet_existing c.order (a, t) (c.clock + 1) q hmemO hq with
        rfl | ⟨hqo, _⟩
      · simp
      · exact Nat.lt_succ_of_le (Nat.le_succ_of_le (hWF.2.2.2 q hqo))
    have hminOrd : minByVal (dictSet (dictSet c.order (a, t) (c.clock + 1)) (a2, t2)
        (c.clock + 1 + 1)) = some lp := by
      rw [hset2O, minByVal_append_big _ _ hne2 hstamps2, hlp]
    have hlpne : lp.1 ≠ (a, t) := by
      intro he
      rcases mem_dictSet_existing c.order (a, t) (c.clock + 1) lp hmemO hspec.1 with
        heq | ⟨_, hne3⟩
      · obtain ⟨k2, hk2mem, hk2ne⟩ := exists_mem_ne
          ((dictSet c.order (a, t) (c.clock + 1)).map Prod.fst) (a, t)
          (by rw [hkeys2]; exact hWF.2.1)
          (by rw [hkeys2]; simp only [List.length_map]; omega)
        obtain ⟨q, hq, hqk⟩ := List.mem_map.1 hk2mem
        rcases mem_dictSet_existing c.order (a, t) (c.clock + 1) q hmemO hq with
          rfl | ⟨hqo, _⟩
        · exact hk2ne (by rw [← hqk])
        · have hle := hspec.2 q hq
          rw [heq] at hle
          have hqc : q.2 ≤ c.clock := hWF.2.2.2 q hqo
          simp only [] at hle
          omega
      · exact hne3 he
    have hlen2 : (dictSet c.entries (a2, t2) f).length = c.capacity + 1 := by
      rw [hset2]
      simp [hfull]
    rw [hget]
    show (a, t) ∈ (FrameCache.put
      { c with clock := c.clock + 1, order := dictSet c.order (a, t) (c.clock + 1) }
      a2 t2 f).entries.map Prod.fst
    unfold FrameCache.put
    rw [if_pos (show (dictSet c.entries (a2, t2) f).length > c.capacity by
      rw [hlen2]; omega), hminOrd]
    show (a, t) ∈ (dictPop (dictSet c.entries (a2, t2) f) lp.1).map Prod.fst
    rw [dictPop_keys, hset2]
    simp only [List.map_append, List.map_cons, List.map_nil, List.filter_append]
    refine List.mem_append_left _ (List.mem_filter.2 ⟨hmem, by simp [Ne.symm hlpne]⟩)

/-- C2 counterexample: in a capacity-1 cache the get-hit does NOT protect the
touched entry — inserting capacity+1 = 2 distinct keys after a hit on the
first still evicts the first (its refreshed stamp is the only candidate). -/
theorem C2_counterexample :
    ("k1", (0 : ℤ)) ∈
      ((((emptyFrameCache Nat 1).put "k1" 0 100).get "k1" 0).2).entries.map Prod.fst ∧
    ("k1", (0 : ℤ)) ∉
      (((((emptyFrameCache Nat 1).put "k1" 0 100).get "k1" 0).2).put "k2" 0 200
        ).entries.map Prod.fst := by
  decide

def demoCache : FrameCache Nat :=
  { capacity := 2,
    entries := [(("x", 0), 10), (("y", 0), 20)],
    order := [(("x", 0), 1), (("y", 0), 2)],
    clock := 2 }

/-- C2 witness: the three amended cache facts at a concrete full
capacity-2 cache. -/
theorem C2_frame_cache_lru_witness :
    (demoCache.put "x" 0 99).entries.length ≤ demoCache.capacity ∧
    (∃ lp ∈ demoCache.order, (∀ q ∈ demoCache.order, lp.2 ≤ q.2) ∧
      (demoCache.put "z" 0 99).entries.map Prod.fst =
        ((demoCache.entries.map Prod.fst).filter (fun h => decide (h ≠ lp.1))) ++
          [("z", 0)] ∧
      (demoCache.put "z" 0 99).entries.length = demoCache.capacity) ∧
    ("x", (0 : ℤ)) ∈
      (((demoCache.get "x" 0).2).put "z" 0 99).entries.map Prod.fst :=
  ⟨C2_frame_cache_lru.1 Nat demoCache "x" 0 99 (by decide) (by decide),
   C2_frame_cache_lru.2.1 Nat demoCache "z" 0 99 (by decide) (by decide)
     (by decide) (by decide),
   C2_frame_cache_lru.2.2 Nat demoCache "x" 0 "z" 0 99 (by decide) (by decide)
     (by decide) (by decide) (by decide)⟩

/-! ## Export render loop (src/io/exporter.py, Exporter.export)

The caller-thread control flow of the render loop: per frame index the
cancel flag is read once, then the frame is rendered, written to the encoder
pipe and the render progress (index+1)/total published; a raised flag aborts
the run, closing the encoder stdin and terminating the process before the
error propagates. The encoder process and the stderr reader thread are
external; the encoder exit code is a parameter of the model. -/

inductive ExportEvent
  | checkCancel (index : Nat) (flag : Bool)
  | renderFrame (index : Nat)
  | publishProgress (value : ℚ)
deriving DecidableEq

inductive ExportStatus
  | cancelled
  | encoderFailed (code : ℤ)
  | completed
deriving DecidableEq

structure ExportRun where
  events : List ExportEvent
  stdinClosed : Bool
  processTerminated : Bool
  status : ExportStatus
deriving DecidableEq

def renderLoop (totalFrames : Nat) (cancel : Nat → Bool) :
    Nat → Nat → List ExportEvent × Bool
  | _, 0 => ([], false)
  | index, remaining + 1 =>
    if cancel index then ([ExportEvent.checkCancel index true], true)
    else
      let rest := renderLoop totalFrames cancel (index + 1) remaining
      (ExportEvent.checkCancel index false :: ExportEvent.renderFrame index ::
         ExportEvent.publishProgress (((index + 1 : ℕ) : ℚ) / (totalFrames : ℚ)) ::
         rest.1,
       rest.2)

def exportRun (totalFrames : Nat) (cancel : Nat → Bool) (encoderExit : ℤ) :
    ExportRun :=
  if (renderLoop totalFrames cancel 0 totalFrames).2 then
    { events := (renderLoop totalFrames cancel 0 totalFrames).1,
      stdinClosed := true, processTerminated := true,
      status := ExportStatus.cancelled }
  else if encoderExit ≠ 0 then
    { events := (renderLoop totalFrames cancel 0 totalFrames).1,
      stdinClosed := true, processTerminated := false,
      status := ExportStatus.encoderFailed encoderExit }
  else
    { events := (renderLoop totalFrames cancel 0 totalFrames).1 ++
        [ExportEvent.publishProgress 1, ExportEvent.publishProgress 1],
      stdinClosed := true, processTerminated := false,
      status := ExportStatus.completed }

/-- Per-frame event block of one completed loop iteration. -/
def frameEvents (totalFrames : Nat) (i : Nat) : List ExportEvent :=
  [ExportEvent.checkCancel i false, ExportEvent.renderFrame i,
   ExportEvent.publishProgress (((i + 1 : ℕ) : ℚ) / (totalFrames : ℚ))]

theorem renderLoop_cancel (total : Nat) (cancel : Nat → Bool) :
    ∀ (m index remaining : Nat), m < remaining → cancel (index + m) = true →
      (∀ j < m, cancel (index + j) = false) →
      renderLoop total cancel index remaining =
        ((List.range' index m).flatMap (frameEvents total) ++
          [ExportEvent.checkCancel (index + m) true], true) := by
  intro m
  induction m with
  | zero =>
    intro index remaining hm hflag _
    obtain ⟨r, rfl⟩ : ∃ r, remaining = r + 1 :=
      ⟨remaining - 1, by omega⟩
    rw [renderLoop, if_pos (by rw [← Nat.add_zero index]; exact hflag)]
    simp
  | succ m ih =>
    intro index remaining hm hflag hbefore
    obtain ⟨r, rfl⟩ : ∃ r, remaining = r + 1 :=
      ⟨remaining - 1, by omega⟩
    have h0 : cancel index = false := by
      have := hbefore 0 (Nat.succ_pos m)
      rwa [Nat.add_zero] at this
    rw [renderLoop, if_neg (by rw [h0]; exact Bool.false_ne_true)]
    have hflag2 : cancel (index + 1 + m) = true := by
      rw [show index + 1 + m = index + (m + 1) by omega]
      exact hflag
    have hbefore2 : ∀ j < m, cancel (index + 1 + j) = false := by
      intro j hj
      rw [show index + 1 + j = index + (j + 1) by omega]
      exact hbefore (j + 1) (by omega)
    have hrec := ih (index + 1) r (by omega) hflag2 hbefore2
    rw [hrec]
    rw [List.range'_succ, List.flatMap_cons]
    simp only [frameEvents]
    rw [show index + 1 + m = index + (m + 1) by omega]
    simp

/-- C8: if the cancel flag first reads true at iteration k < total, the export
run performs exactly the k completed frame iterations before it (each one
checking the flag once, then rendering, then publishing render progress
strictly below 1), observes the flag at iteration k, renders no frame at or
after k, closes the encoder stdin, terminates the encoder process, ends
cancelled, and never publishes progress 1.0. -/
theorem C8_export_cancellation (totalFrames : Nat) (cancel : Nat → Bool)
    (encoderExit : ℤ) (k : Nat) (hk : k < totalFrames)
    (hflag : cancel k = true) (hbefore : ∀ j < k, cancel j = false) :
    (exportRun totalFrames cancel encoderExit).events =
      (List.range' 0 k).flatMap (frameEvents totalFrames) ++
        [ExportEvent.checkCancel k true] ∧
    (exportRun totalFrames cancel encoderExit).status = ExportStatus.cancelled ∧
    (exportRun totalFrames cancel encoderExit).stdinClosed = true ∧
    (exportRun totalFrames cancel encoderExit).processTerminated = true ∧
    (∀ v : ℚ, ExportEvent.publishProgress v ∈
        (exportRun totalFrames cancel encoderExit).events → v < 1) ∧
    (∀ i : Nat, ExportEvent.renderFrame i ∈
        (exportRun totalFrames cancel encoderExit).events ↔ i < k) := by
  have hloop := renderLoop_cancel totalFrames cancel k 0 totalFrames hk
    (by rw [Nat.zero_add]; exact hflag)
    (by intro j hj; rw [Nat.zero_add]; exact hbefore j hj)
  rw [Nat.zero_add] at hloop
  have hrun : exportRun totalFrames cancel encoderExit =
      { events := (List.range' 0 k).flatMap (frameEvents totalFrames) ++
          [ExportEvent.checkCancel k true],
        stdinClosed := true, processTerminated := true,
        status := ExportStatus.cancelled } := by
    unfold exportRun
    rw [hloop]
    rfl
  rw [hrun]
  have htotal : (0 : ℚ) < (totalFrames : ℚ) := by
    have : 0 < totalFrames := by omega
    exact_mod_cast this
  refine ⟨rfl, rfl, rfl, rfl, ?_, ?_⟩
  · intro v hv
    show v < 1
    rcases List.mem_append.1 hv with hv | hv
    · obtain ⟨i, hi, hvin⟩ := List.mem_flatMap.1 hv
      obtain ⟨j, hj, rfl⟩ := List.mem_range'.1 hi
      simp only [frameEvents, List.mem_cons, List.mem_singleton] at hvin
      rcases hvin with h | h | h | h
      · exact absurd h (by simp)
      · exact absurd h (by simp)
      · have hveq : v = (((0 + 1 * j + 1 : ℕ) : ℚ) / (totalFrames : ℚ)) :=
          (ExportEvent.publishProgress.injEq .. ▸ h)
        rw [hveq, div_lt_one htotal]
        have : 0 + 1 * j + 1 ≤ k := by omega
        calc ((0 + 1 * j + 1 : ℕ) : ℚ) ≤ (k : ℚ) := by exact_mod_cast this
        _ < (totalFrames : ℚ) := by exact_mod_cast hk
      · simp at h
    · simp at hv
  · intro i
    constructor
    · intro hi
      rcases List.mem_append.1 hi with hi | hi
      · obtain ⟨i2, hi2, hvin⟩ := List.mem_flatMap.1 hi
        obtain ⟨j, hj, rfl⟩ := List.mem_range'.1 hi2
        simp only [frameEvents, List.mem_cons, List.mem_singleton] at hvin
        rcases hvin with h | h | h | h
        · exact absurd h (by simp)
        · have : i = 0 + 1 * j := (ExportEvent.renderFrame.injEq .. ▸ h)
          omega
        · exact absurd h (by simp)
        · simp at h
      · simp at hi
    · intro hi
      refine List.mem_append_left _ (List.mem_flatMap.2 ⟨i, ?_, ?_⟩)
      · exact List.mem_range'.2 ⟨i, hi, by omega⟩
      · simp [frameEvents]

/-- C8 witness: a five-frame export whose flag first reads true at
iteration 2 renders frames 0 and 1 only, terminates the encoder and ends
cancelled with all published progress below 1. -/
theorem C8_export_cancellation_witness :
    (exportRun 5 (fun i => decide (2 ≤ i)) 0).status = ExportStatus.cancelled ∧
    (exportRun 5 (fun i => decide (2 ≤ i)) 0).stdinClosed = true ∧
    (exportRun 5 (fun i => decide (2 ≤ i)) 0).processTerminated = true ∧
    (∀ v : ℚ, ExportEvent.publishProgress v ∈
        (exportRun 5 (fun i => decide (2 ≤ i)) 0).events → v < 1) ∧
    ExportEvent.renderFrame 1 ∈ (exportRun 5 (fun i => decide (2 ≤ i)) 0).events ∧
    ExportEvent.renderFrame 2 ∉ (exportRun 5 (fun i => decide (2 ≤ i)) 0).events := by
  have h := C8_export_cancellation 5 (fun i => decide (2 ≤ i)) 0 2 (by norm_num)
    (by simp) (fun j hj => by simp; omega)
  refine ⟨h.2.1, h.2.2.1, h.2.2.2.1, h.2.2.2.2.1, (h.2.2.2.2.2 1).2 (by norm_num), ?_⟩
  intro hc
  have := (h.2.2.2.2.2 2).1 hc
  omega

/-! ## Audio ducking (src/core/audio/ducking.py)

Sample buffers are real-valued mono lists; the transcendental float math
(sqrt, log10, exp, 10**x) is over ℝ. The 10 ms analysis window size
int(sample_rate * 0.01) is the exact integer part max (sample_rate / 100) 1,
and the per-window loop is recursion dropping one window at a time. -/

structure DuckingParams where
  threshold : ℝ
  base_gain_db : ℝ
  slope : ℝ
  min_gain_db : ℝ
  attack : ℝ
  release : ℝ

noncomputable def defaultDuckingParams : DuckingParams :=
  { threshold := -30, base_gain_db := 0, slope := 1, min_gain_db := -12,
    attack := 1/20, release := 3/10 }

noncomputable def rms_db (samples : List ℝ) (eps : ℝ := 1e-12) : ℝ :=
  20 * Real.logb 10
    (max (Real.sqrt ((samples.map (fun s => s ^ 2)).sum / (samples.length : ℝ))) eps)

noncomputable def timeCoeff (frame_duration time_constant : ℝ) : ℝ :=
  if time_constant ≤ 0 then 0 else Real.exp (-frame_duration / time_constant)

noncomputable def duckWindows (params : DuckingParams)
    (attack_coeff release_coeff : ℝ) (fsPred : Nat) :
    ℝ → List ℝ → List ℝ → List ℝ × List ℝ
  | _, _, [] => ([], [])
  | gain_db, voice, mh :: mt =>
    let window_voice := voice.take (fsPred + 1)
    let window_music := (mh :: mt).take (fsPred + 1)
    let level := if window_voice.length = 0 then (-120 : ℝ) else rms_db window_voice
    let level_over := max 0 (level - params.threshold)
    let target := max params.min_gain_db
      (params.base_gain_db - params.slope * level_over)
    let g := if target < gain_db then attack_coeff * (gain_db - target) + target
             else release_coeff * (gain_db - target) + target
    let rest := duckWindows params attack_coeff release_coeff fsPred g
      (voice.drop (fsPred + 1)) ((mh :: mt).drop (fsPred + 1))
    (window_music.map (fun s => s * (10 : ℝ) ^ (g / 20)) ++ rest.1, g :: rest.2)
  termination_by _ _ music => music.length
  decreasing_by
    simp only [List.drop, List.length_drop, List.length_cons]
    omega

/-- The analysis window size: int(sample_rate * 0.01), at least 1. -/
def duckFrameSize (sample_rate : Nat) : Nat := max (sample_rate / 100) 1

noncomputable def apply_ducking (voice music : List ℝ) (sample_rate : Nat)
    (params : DuckingParams) : Option (List ℝ) :=
  if voice.length ≠ music.length then none
  else
    some (duckWindows params
      (timeCoeff ((duckFrameSize sample_rate : ℝ) / (sample_rate : ℝ)) params.attack)
      (timeCoeff ((duckFrameSize sample_rate : ℝ) / (sample_rate : ℝ)) params.release)
      (duckFrameSize sample_rate - 1) params.base_gain_db voice music).1

theorem duckWindows_below (params : DuckingParams) (ac rc : ℝ) (fsPred : Nat)
    (hmin : params.min_gain_db ≤ params.base_gain_db) :
    ∀ (n : Nat) (voice music : List ℝ), music.length ≤ n →
      voice.length = music.length →
      (∀ k : Nat, (voice.drop (k * (fsPred + 1))).take (fsPred + 1) ≠ [] →
        rms_db ((voice.drop (k * (fsPred + 1))).take (fsPred + 1)) < params.threshold) →
      (duckWindows params ac rc fsPred params.base_gain_db voice music).1 =
        music.map (fun s => s * (10 : ℝ) ^ (params.base_gain_db / 20)) ∧
      ∀ g ∈ (duckWindows params ac rc fsPred params.base_gain_db voice music).2,
        g = params.base_gain_db := by
  intro n
  induction n with
  | zero =>
    intro voice music hn _ _
    have : music = [] := List.length_eq_zero.1 (by omega)
    subst this
    exact ⟨by rw [duckWindows]; rfl, by simp [duckWindows]⟩
  | succ n ih =>
    intro voice music hn hlen hlevel
    cases music with
    | nil => exact ⟨by rw [duckWindows]; rfl, by simp [duckWindows]⟩
    | cons mh mt =>
      have hvne : voice.take (fsPred + 1) ≠ [] := by
        rw [Ne, List.take_eq_nil_iff]
        push_neg
        refine ⟨by omega, ?_⟩
        intro h0
        rw [h0] at hlen
        simp at hlen
      have hlevel0 := hlevel 0 (by simpa using hvne)
      rw [Nat.zero_mul, List.drop_zero] at hlevel0
      have hlvl : (if (voice.take (fsPred + 1)).length = 0 then (-120 : ℝ)
          else rms_db (voice.take (fsPred + 1))) = rms_db (voice.take (fsPred + 1)) := by
        rw [if_neg]
        rw [List.length_eq_zero]
        exact hvne
      have hover : max 0 (rms_db (voice.take (fsPred + 1)) - params.threshold) = 0 :=
        max_eq_left (by linarith)
      have htarget : max params.min_gain_db
          (params.base_gain_db - params.slope * (0 : ℝ)) = params.base_gain_db := by
        rw [mul_zero, sub_zero]
        exact max_eq_right hmin
      have hg : (if params.base_gain_db < params.base_gain_db then
            ac * (params.base_gain_db - params.base_gain_db) + params.base_gain_db
          else rc * (params.base_gain_db - params.base_gain_db) + params.base_gain_db)
          = params.base_gain_db := by
        rw [if_neg (lt_irrefl _), sub_self, mul_zero, zero_add]
      have hreclen : ((mh :: mt).drop (fsPred + 1)).length ≤ n := by
        have hn2 : mt.length + 1 ≤ n + 1 := by simpa using hn
        simp only [List.length_drop, List.length_cons]
        omega
      have hreclen2 : (voice.drop (fsPred + 1)).length =
          ((mh :: mt).drop (fsPred + 1)).length := by
        simp only [List.length_drop, hlen]
      have hreclevel : ∀ k : Nat,
          ((voice.drop (fsPred + 1)).drop (k * (fsPred + 1))).take (fsPred + 1) ≠ [] →
          rms_db (((voice.drop (fsPred + 1)).drop (k * (fsPred + 1))).take (fsPred + 1))
            < params.threshold := by
        intro k
        rw [List.drop_drop]
        rw [show (fsPred + 1) + k * (fsPred + 1) = (k + 1) * (fsPred + 1) by ring]
        exact hlevel (k + 1)
      obtain ⟨ih1, ih2⟩ := ih (voice.drop (fsPred + 1)) ((mh :: mt).drop (fsPred + 1))
        hreclen hreclen2 hreclevel
      rw [duckWindows, hlvl, hover, htarget, hg]
      constructor
      · show ((mh :: mt).take (fsPred + 1)).map
            (fun s => s * (10 : ℝ) ^ (params.base_gain_db / 20)) ++
            (duckWindows params ac rc fsPred params.base_gain_db
              (voice.drop (fsPred + 1)) ((mh :: mt).drop (fsPred + 1))).1 = _
        rw [ih1, ← List.map_append, List.take_append_drop]
      · intro g hg2
        rcases List.mem_cons.1 hg2 with rfl | hg2
        · rfl
        · exact ih2 g hg2

/-- C9 amended: when every 10 ms voice window is strictly below the
threshold AND min_gain_db ≤ base_gain_db, the smoothed gain is base_gain_db
in every window and the output is the music scaled by 10^(base_gain_db/20)
throughout — the identity when base_gain_db = 0. (The code clamps the target
to ≥ min_gain_db even below threshold, so a min_gain_db above base_gain_db
would pull the gain up; see the counterexample.) -/
theorem C9_ducking_below_threshold (voice music : List ℝ) (sample_rate : Nat)
    (params : DuckingParams) (hlen : voice.length = music.length)
    (hmin : params.min_gain_db ≤ params.base_gain_db)
    (hlevel : ∀ k : Nat,
      (voice.drop (k * duckFrameSize sample_rate)).take (duckFrameSize sample_rate)
        ≠ [] →
      rms_db ((voice.drop (k * duckFrameSize sample_rate)).take
        (duckFrameSize sample_rate)) < params.threshold) :
    apply_ducking voice music sample_rate params =
      some (music.map (fun s => s * (10 : ℝ) ^ (params.base_gain_db / 20))) ∧
    (∀ g ∈ (duckWindows params
        (timeCoeff ((duckFrameSize sample_rate : ℝ) / (sample_rate : ℝ)) params.attack)
        (timeCoeff ((duckFrameSize sample_rate : ℝ) / (sample_rate : ℝ)) params.release)
        (duckFrameSize sample_rate - 1) params.base_gain_db voice music).2,
      g = params.base_gain_db) ∧
    (params.base_gain_db = 0 →
      apply_ducking voice music sample_rate params = some music) := by
  have hfs : duckFrameSize sample_rate - 1 + 1 = duckFrameSize sample_rate := by
    unfold duckFrameSize
    omega
  have h := duckWindows_below params
    (timeCoeff ((duckFrameSize sample_rate : ℝ) / (sample_rate : ℝ)) params.attack)
    (timeCoeff ((duckFrameSize sample_rate : ℝ) / (sample_rate : ℝ)) params.release)
    (duckFrameSize sample_rate - 1) hmin music.length voice music le_rfl hlen
    (by intro k; rw [hfs]; exact hlevel k)
  have hfirst : apply_ducking voice music sample_rate params =
      some (music.map (fun s => s * (10 : ℝ) ^ (params.base_gain_db / 20))) := by
    unfold apply_ducking
    rw [if_neg (not_not_intro hlen)]
    exact congrArg some h.1
  refine ⟨hfirst, h.2, fun h0 => ?_⟩
  rw [hfirst, h0]
  norm_num [Real.rpow_zero]

/-- rms of a single zero sample: sqrt 0 clamps to eps = 1e-12 and
20·log10(1e-12) = -240 dBFS. -/
theorem rms_db_zero_single : rms_db [(0 : ℝ)] = -240 := by
  unfold rms_db
  norm_num
  rw [show (1 / 1000000000000 : ℝ) = (10 : ℝ) ^ (-12 : ℤ) by norm_num,
    ← Real.rpow_intCast, Real.logb_rpow (by norm_num) (by norm_num)]
  norm_num

/-- C9 witness: an always-silent voice buffer leaves the default-parameter
ducking an identity on the music. -/
theorem C9_ducking_below_threshold_witness :
    apply_ducking [0, 0] [1, 1] 100 defaultDuckingParams =
      some (([(1 : ℝ), 1]).map
        (fun s => s * (10 : ℝ) ^ (defaultDuckingParams.base_gain_db / 20))) ∧
    apply_ducking [0, 0] [1, 1] 100 defaultDuckingParams = some [1, 1] := by
  have hlevel : ∀ k : Nat,
      (([(0 : ℝ), 0].drop (k * duckFrameSize 100)).take (duckFrameSize 100) ≠ []) →
      rms_db (([(0 : ℝ), 0].drop (k * duckFrameSize 100)).take (duckFrameSize 100))
        < defaultDuckingParams.threshold := by
    intro k hk
    have hfs : duckFrameSize 100 = 1 := rfl
    match k with
    | 0 =>
      rw [show (([(0 : ℝ), 0].drop (0 * duckFrameSize 100)).take (duckFrameSize 100))
        = [0] from rfl, rms_db_zero_single]
      norm_num [defaultDuckingParams]
    | 1 =>
      rw [show (([(0 : ℝ), 0].drop (1 * duckFrameSize 100)).take (duckFrameSize 100))
        = [0] from rfl, rms_db_zero_single]
      norm_num [defaultDuckingParams]
    | k + 2 =>
      exfalso
      apply hk
      rw [hfs, Nat.mul_one]
      rw [List.drop_eq_nil_of_le (by simp)]
      rfl
  have h := C9_ducking_below_threshold [0, 0] [1, 1] 100 defaultDuckingParams rfl
    (by norm_num [defaultDuckingParams]) hlevel
  exact ⟨h.1, h.2.2 rfl⟩

def badDuckingParams : DuckingParams :=
  { threshold := -30, base_gain_db := 0, slope := 1, min_gain_db := 6,
    attack := 1, release := 0 }

theorem timeCoeff_zero_const (fd : ℝ) : timeCoeff fd 0 = 0 := by
  unfold timeCoeff
  rw [if_pos le_rfl]

/-- C9 counterexample: with min_gain_db = 6 dB above base_gain_db = 0 the
below-threshold target is clamped UP to 6 dB, so a silent voice window
still rescales the music: gain stays base_gain_db is false as stated. -/
theorem C9_counterexample :
    (∀ k : Nat,
      (([(0 : ℝ)].drop (k * duckFrameSize 100)).take (duckFrameSize 100) ≠ []) →
      rms_db (([(0 : ℝ)].drop (k * duckFrameSize 100)).take (duckFrameSize 100))
        < badDuckingParams.threshold) ∧
    apply_ducking [(0 : ℝ)] [(1 : ℝ)] 100 badDuckingParams ≠
      some (([(1 : ℝ)]).map
        (fun s => s * (10 : ℝ) ^ (badDuckingParams.base_gain_db / 20))) := by
  constructor
  · intro k hk
    match k with
    | 0 =>
      rw [show (([(0 : ℝ)].drop (0 * duckFrameSize 100)).take (duckFrameSize 100))
        = [0] from rfl, rms_db_zero_single]
      norm_num [badDuckingParams]
    | k + 1 =>
      exfalso
      apply hk
      rw [show duckFrameSize 100 = 1 from rfl, Nat.mul_one]
      rw [List.drop_eq_nil_of_le (by simp)]
      rfl
  · have heval : apply_ducking [(0 : ℝ)] [(1 : ℝ)] 100 badDuckingParams =
        some [1 * (10 : ℝ) ^ ((6 : ℝ) / 20)] := by
      unfold apply_ducking
      rw [if_neg (by norm_num)]
      refine congrArg some ?_
      rw [show duckFrameSize 100 - 1 = 0 from rfl,
        show badDuckingParams.release = 0 from rfl, timeCoeff_zero_const]
      rw [duckWindows]
      rw [show List.take (0 + 1) [(1 : ℝ)] = [1] from rfl,
        show List.take (0 + 1) [(0 : ℝ)] = [0] from rfl,
        show List.drop (0 + 1) [(0 : ℝ)] = ([] : List ℝ) from rfl,
        show List.drop (0 + 1) [(1 : ℝ)] = ([] : List ℝ) from rfl]
      rw [if_neg (show ¬ ([(0 : ℝ)].length = 0) by simp)]
      rw [rms_db_zero_single,
        show badDuckingParams.threshold = (-30 : ℝ) from rfl,
        show badDuckingParams.base_gain_db = (0 : ℝ) from rfl,
        show badDuckingParams.min_gain_db = (6 : ℝ) from rfl,
        show badDuckingParams.slope = (1 : ℝ) from rfl]
      rw [show ((-240 : ℝ) - -30) = -210 by norm_num]
      rw [max_eq_left (show (-210 : ℝ) ≤ 0 by norm_num)]
      rw [show (1 : ℝ) * 0 = 0 from mul_zero 1, show (0 : ℝ) - 0 = 0 from sub_zero 0]
      rw [max_eq_left (show (0 : ℝ) ≤ 6 by norm_num)]
      rw [if_neg (show ¬ (6 : ℝ) < 0 by norm_num)]
      rw [show (0 : ℝ) * (0 - 6) + 6 = 6 by norm_num]
      rw [duckWindows]
      simp
    rw [heval]
    intro hcon
    have h1 : (1 : ℝ) * (10 : ℝ) ^ ((6 : ℝ) / 20) =
        1 * (10 : ℝ) ^ (badDuckingParams.base_gain_db / 20) := by
      have := Option.some.inj hcon
      simpa using this
    rw [show badDuckingParams.base_gain_db = (0 : ℝ) from rfl] at h1
    rw [show ((0 : ℝ) / 20) = 0 by norm_num, Real.rpow_zero] at h1
    have hgt : 1 < (10 : ℝ) ^ ((6 : ℝ) / 20) :=
      (Real.one_lt_rpow_iff_of_pos (by norm_num)).2 (Or.inl ⟨by norm_num, by norm_num⟩)
    rw [one_mul, one_mul] at h1
    exact absurd h1 (ne_of_gt hgt)

end VideoEdit
